import Mathlib

/-!
Verification of the compare-engine core of the Eriks-super-litera repository.

The Python sources under `backend/app` are shallowly embedded: pure functions
become Lean functions on `List`/`String`/`Nat`/`Int`/`ℚ`, XML trees become an
inductive `Xml` type, Python exceptions (IndexError) become `Option.none`, and
Python dicts become association lists with insertion-order semantics.
Floating-point similarity scores are modelled exactly with rationals.
-/

namespace Litera

/-! ## Text utilities (`backend/app/utils/text_ops.py`) -/

/-- Python `\s` whitespace, restricted to the ASCII range that the documents
under comparison use. -/
def isPySpace (c : Char) : Bool :=
  c = ' ' ∨ c = '\t' ∨ c = '\n' ∨ c = '\r' ∨ c = '\x0b' ∨ c = '\x0c'

/-- Lower-casing a string character by character (Python `str.lower`,
restricted to the simple case mapping). -/
def pyLower (s : String) : String :=
  ⟨s.data.map Char.toLower⟩

/-- Collapse each maximal run of whitespace characters to a single space
(Python `re.sub(r"\s+", " ", text)`); the Bool argument records whether the
previous character was part of a whitespace run. -/
def collapseWs : List Char → Bool → List Char
  | [], _ => []
  | c :: rest, inRun =>
      if isPySpace c then
        if inRun then collapseWs rest true else ' ' :: collapseWs rest true
      else c :: collapseWs rest false

/-- Python `str.strip()` after whitespace collapsing: drop leading and
trailing spaces. -/
def stripSpaces (l : List Char) : List Char :=
  ((l.dropWhile isPySpace).reverse.dropWhile isPySpace).reverse

/-- `normalize_for_compare` from `utils/text_ops.py`: collapse whitespace,
strip, lowercase; empty input short-circuits to the empty string. -/
def normalize_for_compare (text : String) : String :=
  if text = "" then ""
  else pyLower ⟨stripSpaces (collapseWs text.data false)⟩

/-- Python `\w` word characters (alphanumeric or underscore, ASCII model). -/
def isPyWord (c : Char) : Bool :=
  c.isAlphanum ∨ c = '_'

/-- One scanning step of the regex `\w+|\s+|[^\w\s]`: take a maximal word run,
a maximal whitespace run, or a single other character.  The fuel argument is
the remaining input length, which bounds the number of emitted tokens. -/
def tokenizeGo : Nat → List Char → List String
  | 0, _ => []
  | _, [] => []
  | fuel + 1, c :: rest =>
      if isPyWord c then
        let run := (c :: rest).takeWhile isPyWord
        let rest' := (c :: rest).dropWhile isPyWord
        (⟨run⟩ : String) :: tokenizeGo fuel rest'
      else if isPySpace c then
        let run := (c :: rest).takeWhile isPySpace
        let rest' := (c :: rest).dropWhile isPySpace
        (⟨run⟩ : String) :: tokenizeGo fuel rest'
      else
        (⟨[c]⟩ : String) :: tokenizeGo fuel rest

/-- `tokenize_preserve_spacing` from `utils/text_ops.py`:
`re.findall(r"\w+|\s+|[^\w\s]", text)`. -/
def tokenize_preserve_spacing (text : String) : List String :=
  tokenizeGo text.data.length text.data

/-- Modelled from the spec: `tokenize_for_diff(s, granularity)` is imported by
`compare_engine.py` from `utils/text_ops.py` but absent from that file; the
spec (§4.1) defines it as `tokenize_preserve_spacing` for word granularity and
a per-character decomposition for char granularity. -/
def tokenize_for_diff (text : String) (granularity : String) : List String :=
  if granularity = "char" then text.data.map (fun c => (⟨[c]⟩ : String))
  else tokenize_preserve_spacing text

/-! ## Character n-grams and the legacy move heuristic
(`compare_engine.py` lines 11-67) -/

/-- Sliding windows of length `w` over a character list: the window starting
at each position whose full length fits. -/
def listWindows (w : Nat) : List Char → List (List Char)
  | [] => []
  | c :: rest =>
      if w ≤ (c :: rest).length then
        (c :: rest).take w :: listWindows w rest
      else []

/-- `_char_ngrams` from `compare_engine.py`: all length-`window` substrings;
empty when the window is nonpositive or longer than the text.  The source's
`int` window is modelled as `Int`. -/
def char_ngrams (text : String) (window : Int) : List String :=
  if window ≤ 0 ∨ text = "" ∨ (text.length : Int) < window then []
  else (listWindows window.toNat text.data).map (fun cs => (⟨cs⟩ : String))

/-- Add an element to a Python-set-modelled-as-list (no duplicates,
insertion order). -/
def setAdd (s : List String) (x : String) : List String :=
  if x ∈ s then s else s ++ [x]

/-- `_build_ngram_index` from `compare_engine.py`: the set of normalized
character n-grams of all paragraph texts (paragraph dicts are modelled by
their `text` values). -/
def build_ngram_index (paragraphs : List String) (window : Int) : List String :=
  paragraphs.foldl
    (fun index p => (char_ngrams (normalize_for_compare p) window).foldl setAdd index)
    []

/-- The delete-branch classification of `_classify_and_wrap`
(`compare_engine.py` lines 54-55): a deleted segment whose raw text is in the
other document's n-gram index is classified as a move. -/
def classify_delete_segment (seg : String) (mod_index : List String) : String :=
  if seg ∈ mod_index then "diff-move line-through" else "diff-delete line-through"

/-- The insert-branch classification of `_classify_and_wrap`
(`compare_engine.py` lines 61-62). -/
def classify_insert_segment (seg : String) (orig_index : List String) : String :=
  if seg ∈ orig_index then "diff-move" else "diff-insert"

end Litera

namespace Litera

/-! ## Opcodes and the Myers fallback (`compare_engine.py` lines 207-281) -/

/-- Opcode tags used by the aligner. -/
inductive Tag : Type where
  | equal | delete | insert | replace
deriving DecidableEq, Repr

/-- An aligner opcode `(tag, i1, i2, j1, j2)`. -/
structure Opcode where
  tag : Tag
  o1 : Nat
  o2 : Nat
  m1 : Nat
  m2 : Nat
deriving DecidableEq, Repr

/-- One row of the edit-distance DP table, built from the previous row:
`dp[i][j] = dp[i-1][j-1]` on equal elements, else `1 + min` of the three
neighbours (`compare_engine.py` lines 225-235). -/
def myersRow (a b : List String) (i : Nat) (prev : List Nat) : List Nat :=
  (List.range (b.length + 1)).foldl
    (fun cur j =>
      if j = 0 then cur ++ [i]
      else if a.getD (i - 1) "" = b.getD (j - 1) "" then
        cur ++ [prev.getD (j - 1) 0]
      else
        cur ++ [1 + min (prev.getD j 0) (min (cur.getD (j - 1) 0) (prev.getD (j - 1) 0))])
    []

/-- The full DP table of `_myers_diff`; row 0 is `0..m`. -/
def myersTable (a b : List String) : List (List Nat) :=
  (List.range a.length).foldl
    (fun rows i => rows ++ [myersRow a b (i + 1) (rows.getLastD [])])
    [List.range (b.length + 1)]

/-- Table lookup `dp[i][j]`. -/
def dpAt (dp : List (List Nat)) (i j : Nat) : Nat :=
  (dp.getD i []).getD j 0

/-- The backtracking loop of `_myers_diff` (lines 238-258), producing opcodes
in reverse order.  Equal steps emit nothing — exactly as in the source, whose
`# Equal - will be merged later` branch never appends an opcode.  The fuel is
`i + j`, which bounds the number of loop iterations. -/
def myersBacktrack (a b : List String) (dp : List (List Nat)) :
    Nat → Nat → Nat → List Opcode
  | 0, _, _ => []
  | fuel + 1, i, j =>
      if 0 < i ∧ 0 < j ∧ a.getD (i - 1) "" = b.getD (j - 1) "" then
        myersBacktrack a b dp fuel (i - 1) (j - 1)
      else if 0 < i ∧ (j = 0 ∨ dpAt dp i j = dpAt dp (i - 1) j + 1) then
        ⟨.delete, i - 1, i, j, j⟩ :: myersBacktrack a b dp fuel (i - 1) j
      else if 0 < j ∧ (i = 0 ∨ dpAt dp i j = dpAt dp i (j - 1) + 1) then
        ⟨.insert, i, i, j - 1, j⟩ :: myersBacktrack a b dp fuel i (j - 1)
      else if 0 < i ∨ 0 < j then
        ⟨.replace, i - 1, i, j - 1, j⟩ :: myersBacktrack a b dp fuel (i - 1) (j - 1)
      else []

/-- The merge pass of `_myers_diff` (lines 263-270): adjacent opcodes with the
same tag and abutting ranges are coalesced. -/
def mergeOpcodes (ops : List Opcode) : List Opcode :=
  ops.foldl
    (fun merged op =>
      match merged.getLast? with
      | some prev =>
          if prev.tag = op.tag ∧ prev.o2 = op.o1 ∧ prev.m2 = op.m1 then
            merged.dropLast ++ [⟨op.tag, prev.o1, op.o2, prev.m1, op.m2⟩]
          else merged ++ [op]
      | none => [op])
    []

/-- The final pass of `_myers_diff` (lines 273-279): each replace becomes a
back-to-back delete+insert. -/
def splitReplaces (ops : List Opcode) : List Opcode :=
  ops.foldl
    (fun acc op =>
      if op.tag = .replace then
        acc ++ [⟨.delete, op.o1, op.o2, op.m1, op.m1⟩, ⟨.insert, op.o2, op.o2, op.m1, op.m2⟩]
      else acc ++ [op])
    []

/-- `_myers_diff` from `compare_engine.py`. -/
def myers_diff (a b : List String) : List Opcode :=
  if a = [] ∧ b = [] then []
  else if a = [] then [⟨.insert, 0, 0, 0, b.length⟩]
  else if b = [] then [⟨.delete, 0, a.length, 0, 0⟩]
  else
    let dp := myersTable a b
    let opcodes := (myersBacktrack a b dp (a.length + b.length) a.length b.length).reverse
    splitReplaces (mergeOpcodes opcodes)

/-! ## Patience LIS (`compare_engine.py` lines 158-204) -/

/-- The value at the top of a pile (`piles[k][-1][0]`). -/
def pileTopVal (p : List (Nat × Nat)) : Nat := (p.getLastD (0, 0)).1

/-- The index at the top of a pile (`piles[k][-1][1]`). -/
def pileTopIdx (p : List (Nat × Nat)) : Nat := (p.getLastD (0, 0)).2

/-- The binary search of `_patience_lis` (lines 172-179): leftmost pile whose
top value is `≥ val`.  Fuel bounds the iteration count by the initial width. -/
def pileSearch (piles : List (List (Nat × Nat))) (val : Nat) :
    Nat → Nat → Nat → Nat
  | 0, left, _ => left
  | fuel + 1, left, right =>
      if left < right then
        let mid := (left + right) / 2
        if val ≤ pileTopVal (piles.getD mid []) then
          pileSearch piles val fuel left mid
        else
          pileSearch piles val fuel (mid + 1) right
      else left

/-- Processing one `(val, idx)` element of `_patience_lis` (lines 171-191):
place on the found pile (creating it if past the end) and record the
predecessor.  Predecessors are an insertion-ordered dict modelled as an
association list with newest-first lookup. -/
def patienceStep (st : List (List (Nat × Nat)) × List (Nat × Option Nat))
    (vi : Nat × Nat) : List (List (Nat × Nat)) × List (Nat × Option Nat) :=
  let (piles, preds) := st
  let (val, idx) := vi
  let left := pileSearch piles val (piles.length + 1) 0 piles.length
  let piles' := if left = piles.length then piles ++ [[]] else piles
  let piles'' := piles'.set left ((piles'.getD left []) ++ [(val, idx)])
  let preds' :=
    if 0 < left then (idx, some (pileTopIdx (piles''.getD (left - 1) []))) :: preds
    else (idx, none) :: preds
  (piles'', preds')

/-- Predecessor lookup: Python's `dict.get` returns `None` both for a missing
key and for a stored `None`. -/
def predLookup (preds : List (Nat × Option Nat)) (idx : Nat) : Option Nat :=
  match preds.find? (fun e => e.1 = idx) with
  | some e => e.2
  | none => none

/-- The LIS reconstruction loop of `_patience_lis` (lines 197-201), following
predecessors from the given start.  For the duplicate-free index sequences the
aligner passes, each predecessor was placed strictly earlier, so the chain
length is at most the sequence length and the fuel is never exhausted. -/
def lisReconstruct (preds : List (Nat × Option Nat)) :
    Nat → Option Nat → List Nat
  | _, none => []
  | 0, some _ => []
  | fuel + 1, some idx => idx :: lisReconstruct preds fuel (predLookup preds idx)

/-- `_patience_lis` from `compare_engine.py`: longest increasing subsequence
by patience sorting, returning the `idx` components of the chosen elements. -/
def patience_lis (sequence : List (Nat × Nat)) : List Nat :=
  if sequence = [] then []
  else
    let st := sequence.foldl patienceStep ([], [])
    if st.1 = [] then []
    else
      (lisReconstruct st.2 (sequence.length + 1)
        (some (pileTopIdx (st.1.getLastD [])))).reverse

end Litera

namespace Litera

/-! ## Patience + Myers alignment (`compare_engine.py` lines 284-396) -/

/-- Association-list lookup (Python `dict` access by key). -/
def assocFind (m : List (String × List Nat)) (k : String) : Option (List Nat) :=
  match m.find? (fun e => e.1 = k) with
  | some e => some e.2
  | none => none

/-- `dict.setdefault(h, []).append(j)`: extend the key's list in place, or add
a new key at the end (dicts preserve insertion order). -/
def setdefaultAppend (m : List (String × List Nat)) (h : String) (j : Nat) :
    List (String × List Nat) :=
  if (m.find? (fun e => e.1 = h)).isSome then
    m.map (fun e => if e.1 = h then (e.1, e.2 ++ [j]) else e)
  else m ++ [(h, [j])]

/-- Building `mod_hash_to_indices` (lines 303-306) over the enumerated
modified sequence. -/
def buildModHashMap (hash_fn : String → String) (modified : List String) :
    List (String × List Nat) :=
  (modified.enum).foldl (fun m ji => setdefaultAppend m (hash_fn ji.2) ji.1) []

/-- The greedy earliest-unused matching loop (lines 309-321); `i` is the index
of the head of the remaining original items. -/
def greedyGo (hash_fn : String → String) (hmap : List (String × List Nat)) :
    List String → Nat → List Nat → List (Nat × Nat) → List (Nat × Nat)
  | [], _, _, ms => ms
  | item :: rest, i, used, ms =>
      match assocFind hmap (hash_fn item) with
      | none => greedyGo hash_fn hmap rest (i + 1) used ms
      | some js =>
          match js.filter (fun j => j ∉ used) with
          | [] => greedyGo hash_fn hmap rest (i + 1) used ms
          | j :: _ => greedyGo hash_fn hmap rest (i + 1) (used ++ [j]) (ms ++ [(i, j)])

/-- The matching phase of `_align_patience_myers`: for each original item take
the earliest unused modified position with the same hash. -/
def greedyMatches (hash_fn : String → String) (original modified : List String) :
    List (Nat × Nat) :=
  greedyGo hash_fn (buildModHashMap hash_fn modified) original 0 [] []

/-- Stable insertion preserving elements for which `le` already holds
(Python's stable `sorted`). -/
def insertBy {α : Type} (le : α → α → Bool) (x : α) : List α → List α
  | [] => [x]
  | y :: ys => if le y x then y :: insertBy le x ys else x :: y :: ys

/-- Stable sort (model of Python `sorted`). -/
def sortBy {α : Type} (le : α → α → Bool) (l : List α) : List α :=
  l.foldl (fun acc x => insertBy le x acc) []

/-- Pair rows generated from a list of (already replace-free) opcodes, offset
by the current cursor positions: `equal` emits matched rows, `delete` rows
with a `-1` modified index, `insert` rows with a `-1` original index (lines
328-341 and 362-371 of `compare_engine.py`). -/
def gapPairs (orig_idx mod_idx : Nat) (opcodes : List Opcode) : List (Int × Int) :=
  opcodes.foldl
    (fun acc op =>
      match op.tag with
      | .equal =>
          acc ++ (List.range (op.o2 - op.o1)).map
            (fun off => (((orig_idx + op.o1 + off : Nat) : Int),
              ((mod_idx + op.m1 + off : Nat) : Int)))
      | .delete =>
          acc ++ (List.range (op.o2 - op.o1)).map
            (fun off => (((orig_idx + op.o1 + off : Nat) : Int), (-1 : Int)))
      | .insert =>
          acc ++ (List.range (op.m2 - op.m1)).map
            (fun off => ((-1 : Int), ((mod_idx + op.m1 + off : Nat) : Int)))
      | .replace => acc)
    []

/-- The per-anchor body of the LIS loop of `_align_patience_myers` (lines
354-378): fetch `sorted_matches[orig_i]` (IndexError modelled as `none`),
emit Myers rows for the gap before the anchor, then the anchor row itself. -/
def alignAnchorStep (original modified : List String)
    (sorted_matches : List (Nat × Nat))
    (st : List (Int × Int) × Nat × Nat) (orig_i : Nat) :
    Option (List (Int × Int) × Nat × Nat) := do
  let (pairs, orig_idx, mod_idx) := st
  let m ← sorted_matches.get? orig_i
  let mod_j := m.2
  let orig_gap := (original.drop orig_idx).take (orig_i - orig_idx)
  let mod_gap := (modified.drop mod_idx).take (mod_j - mod_idx)
  if orig_gap ≠ [] ∨ mod_gap ≠ [] then
    let gap := gapPairs orig_idx mod_idx (myers_diff orig_gap mod_gap)
    pure (pairs ++ gap ++ [(((orig_i : Nat) : Int), ((mod_j : Nat) : Int))],
      orig_i + 1, mod_j + 1)
  else
    pure (pairs ++ [(((orig_i : Nat) : Int), ((mod_j : Nat) : Int))],
      orig_i + 1, mod_j + 1)

/-- `_align_patience_myers` from `compare_engine.py`.  The source's optional
`hash_fn` argument defaults to the identity in every caller.  The list
subscript `sorted_matches[orig_i]` raises `IndexError` whenever the LIS entry
is not a valid position of the match list; that exception is modelled as
`none`. -/
def align_patience_myers (hash_fn : String → String)
    (original modified : List String) : Option (List (Int × Int)) :=
  let ms := greedyMatches hash_fn original modified
  if ms = [] then
    some (gapPairs 0 0 (myers_diff original modified))
  else
    let sorted_matches := sortBy (fun x y => x.1 ≤ y.1) ms
    let match_sequence := sorted_matches.map (fun m => (m.2, m.1))
    let lis_indices := patience_lis match_sequence
    do
      let st ← lis_indices.foldlM
        (alignAnchorStep original modified sorted_matches) ([], 0, 0)
      let (pairs, orig_idx, mod_idx) := st
      if orig_idx < original.length ∨ mod_idx < modified.length then
        let orig_gap := original.drop orig_idx
        let mod_gap := modified.drop mod_idx
        pure (pairs ++ gapPairs orig_idx mod_idx (myers_diff orig_gap mod_gap))
      else
        pure pairs

end Litera


namespace Litera

/-! ## Shingles, Jaccard and move detection (`compare_engine.py` lines 551-771) -/

/-- Clamp a Python slice bound: negative indices count from the end. -/
def pyBound (n : Nat) (i : Int) : Nat :=
  if i < 0 then ((n : Int) + i).toNat else min i.toNat n

/-- Python list slicing `l[start:stop]` with int bounds. -/
def pySlice {α : Type} (l : List α) (start stop : Int) : List α :=
  (l.take (pyBound l.length stop)).drop (pyBound l.length start)

/-- Python `range(k)` for a possibly nonpositive `int` bound. -/
def intRange (k : Int) : List Int :=
  if k ≤ 0 then [] else (List.range k.toNat).map Int.ofNat

/-- Join strings with a separator (Python `sep.join`). -/
def joinSep (sep : String) : List String → String
  | [] => ""
  | [x] => x
  | x :: rest => x ++ sep ++ joinSep sep rest

/-- `_token_shingles` from `compare_engine.py`: the set of space-joined windows
of `shingle_size` consecutive tokens.  Sets are modelled as duplicate-free
lists in insertion order; the source's `int` size is modelled as `Int`
(Python slice semantics are preserved for nonpositive sizes). -/
def token_shingles (tokens : List String) (shingle_size : Int) : List String :=
  if (tokens.length : Int) < shingle_size then []
  else
    (intRange ((tokens.length : Int) - shingle_size + 1)).foldl
      (fun s i => setAdd s (joinSep " " (pySlice tokens i (i + shingle_size))))
      []

/-- `_jaccard_similarity` from `compare_engine.py`, on sets modelled as
duplicate-free lists; the float result is modelled exactly as a rational. -/
def jaccard_similarity (set1 set2 : List String) : ℚ :=
  if set1 = [] ∧ set2 = [] then 1
  else if set1 = [] ∨ set2 = [] then 0
  else
    let inter := (set1.filter (fun x => x ∈ set2)).length
    let uni := (set1 ++ set2.filter (fun x => x ∉ set1)).length
    if 0 < uni then (inter : ℚ) / (uni : ℚ) else 0

/-- A delete/insert span `(text, tokens, start, end)` as used by the move
detector. -/
structure Span where
  text : String
  tokens : List String
  spanStart : Nat
  spanEnd : Nat
deriving DecidableEq, Repr

/-- The per-span shingle sets of `_detect_moves_shingled` (lines 611-626):
spans below the minimum token count get the empty set. -/
def spanShingles (spans : List Span) (shingle_size min_span_tokens : Int) :
    List (List String) :=
  spans.map (fun sp =>
    if min_span_tokens ≤ (sp.tokens.length : Int) then
      token_shingles sp.tokens shingle_size
    else [])

/-- The best-insertion search of `_detect_moves_shingled` (lines 639-652):
scan insertions in order, tracking the first maximal Jaccard score at or above
the threshold among unused, non-empty-shingle insertions. -/
def bestInsertion (inserted_shingles : List (List String))
    (used : List Nat) (del_shingles : List String) (threshold : ℚ) :
    Option (Nat × ℚ) :=
  (inserted_shingles.enum.foldl
    (fun (st : Option (Nat × ℚ) × ℚ) e =>
      let best_jaccard := st.2
      let (ins_idx, ins_shingles) := e
      if ins_idx ∈ used ∨ ins_shingles = [] then st
      else
        let jac := jaccard_similarity del_shingles ins_shingles
        if threshold ≤ jac ∧ best_jaccard < jac then (some (ins_idx, jac), jac)
        else st)
    (none, 0)).1

/-- `_detect_moves_shingled` from `compare_engine.py`: sort deletions by
shingle-set size descending (stably), then greedily claim the best-matching
unused insertion at or above the Jaccard threshold.  The returned dict is an
insertion-ordered association list from `(del_idx, del_start, del_end)` to
`(ins_idx, ins_start, ins_end)`. -/
def detect_moves_shingled (deleted_spans inserted_spans : List Span)
    (shingle_size : Int) (jaccard_threshold : ℚ) (min_span_tokens : Int) :
    List ((Nat × Nat × Nat) × (Nat × Nat × Nat)) :=
  let deleted_shingles := spanShingles deleted_spans shingle_size min_span_tokens
  let inserted_shingles := spanShingles inserted_spans shingle_size min_span_tokens
  let del_with_size :=
    sortBy (fun x y => (y.2.1.length ≤ x.2.1.length : Bool))
      (deleted_shingles.zip deleted_spans).enum
  (del_with_size.foldl
    (fun (st : List ((Nat × Nat × Nat) × (Nat × Nat × Nat)) × List Nat) e =>
      let (mappings, used) := st
      let (del_idx, del_shingles, del_span) := e
      if del_shingles = [] then st
      else
        match bestInsertion inserted_shingles used del_shingles jaccard_threshold with
        | some (ins_idx, _) =>
            let ins := inserted_spans.getD ins_idx ⟨"", [], 0, 0⟩
            (mappings ++ [((del_idx, del_span.spanStart, del_span.spanEnd),
              (ins_idx, ins.spanStart, ins.spanEnd))], used ++ [ins_idx])
        | none => st)
    ([], [])).1

/-- `_build_char_to_token_map` from `compare_engine.py`: character position to
token index, as an insertion-ordered dict (later assignments override, hence
newest-first lookup). -/
def build_char_to_token_map (tokens : List String) : List (Nat × Nat) :=
  (tokens.enum.foldl
    (fun (st : List (Nat × Nat) × Nat) e =>
      let (m, char_pos) := st
      let (token_idx, token) := e
      ((char_pos + token.length, token_idx + 1) :: (char_pos, token_idx) :: m,
        char_pos + token.length))
    ([], 0)).1

/-- `dict.get(key, default)` on the char-to-token map. -/
def charMapGet (m : List (Nat × Nat)) (k d : Nat) : Nat :=
  match m.find? (fun e => e.1 = k) with
  | some e => e.2
  | none => d

/-- A classified operation `(tag, o1, o2, m1, m2, is_move)`. -/
structure ClassifiedOp where
  tag : Tag
  o1 : Nat
  o2 : Nat
  m1 : Nat
  m2 : Nat
  is_move : Bool
deriving DecidableEq, Repr

/-- Python string slicing `text[a:b]` for the nonnegative positions used by
the span extraction. -/
def strSlice (s : String) (a b : Nat) : String :=
  ⟨(s.data.take b).drop a⟩

/-- The span-extraction loop of `_classify_operations_with_moves` (lines
691-710).  Note that each appended span records `len(spans)` — the span's
position in the list — in both its `start` and `end` slots. -/
def extractSpans (opcodes : List Opcode) (original_text modified_text : String)
    (original_tokens modified_tokens : List String) : List Span × List Span :=
  opcodes.foldl
    (fun (st : List Span × List Span) op =>
      let (dels, inss) := st
      match op.tag with
      | .delete =>
          let span_text := strSlice original_text op.o1 op.o2
          let cmap := build_char_to_token_map original_tokens
          let token_start := charMapGet cmap op.o1 0
          let token_end := charMapGet cmap op.o2 original_tokens.length
          let span_tokens := (original_tokens.take token_end).drop token_start
          (dels ++ [⟨span_text, span_tokens, dels.length, dels.length⟩], inss)
      | .insert =>
          let span_text := strSlice modified_text op.m1 op.m2
          let cmap := build_char_to_token_map modified_tokens
          let token_start := charMapGet cmap op.m1 0
          let token_end := charMapGet cmap op.m2 modified_tokens.length
          let span_tokens := (modified_tokens.take token_end).drop token_start
          (dels, inss ++ [⟨span_text, span_tokens, inss.length, inss.length⟩])
      | _ => st)
    ([], [])

/-- The `char_move_map` of `_classify_operations_with_moves` (lines 721-727):
keyed by the `start`/`end` slots of the matched deleted span, valued by those
of the matched inserted span. -/
def buildCharMoveMap (move_mappings : List ((Nat × Nat × Nat) × (Nat × Nat × Nat)))
    (deleted_spans inserted_spans : List Span) : List ((Nat × Nat) × (Nat × Nat)) :=
  move_mappings.foldl
    (fun cmm e =>
      let (dk, iv) := e
      let d := deleted_spans.getD dk.1 ⟨"", [], 0, 0⟩
      let i := inserted_spans.getD iv.1 ⟨"", [], 0, 0⟩
      cmm ++ [((d.spanStart, d.spanEnd), (i.spanStart, i.spanEnd))])
    []

/-- The per-operation move flag of `_classify_operations_with_moves` (lines
734-747): a delete is a move when its character interval is a key of the
`char_move_map`; an insert when its interval lies inside a recorded insertion
interval. -/
def classifyIsMove (char_move_map : List ((Nat × Nat) × (Nat × Nat)))
    (op : Opcode) : Bool :=
  match op.tag with
  | .delete => (char_move_map.find? (fun e => e.1 = (op.o1, op.o2))).isSome
  | .insert => char_move_map.any (fun e => e.2.1 ≤ op.m1 ∧ op.m2 ≤ e.2.2)
  | _ => false

/-- `_classify_operations_with_moves` from `compare_engine.py`: extract spans,
detect moves, and flag each operation whose positions match the recorded move
map. -/
def classify_operations_with_moves (opcodes : List Opcode)
    (original_text modified_text : String)
    (original_tokens modified_tokens : List String)
    (shingle_size : Int) (jaccard_threshold : ℚ) (min_move_span_tokens : Int) :
    List ClassifiedOp :=
  let deleted_spans :=
    (extractSpans opcodes original_text modified_text original_tokens modified_tokens).1
  let inserted_spans :=
    (extractSpans opcodes original_text modified_text original_tokens modified_tokens).2
  let move_mappings :=
    detect_moves_shingled deleted_spans inserted_spans
      shingle_size jaccard_threshold min_move_span_tokens
  let char_move_map := buildCharMoveMap move_mappings deleted_spans inserted_spans
  opcodes.map (fun op =>
    ⟨op.tag, op.o1, op.o2, op.m1, op.m2, classifyIsMove char_move_map op⟩)

end Litera


namespace Litera

/-! ## XML trees and the OOXML reader (`backend/app/services/ooxml_layer.py`)

`lxml`/`ElementTree` elements are modelled as immutable trees carrying a tag,
an attribute association list, the element text, and the child list.  Python
tags carry the WordprocessingML namespace prefix; we write them `w:p`, `w:r`,
`w:t`, …  Tree mutation in the source becomes functional transformation. -/

inductive Xml : Type where
  | mk (tag : String) (attrs : List (String × String)) (text : String)
      (children : List Xml)

/-- Element tag. -/
def Xml.tag : Xml → String
  | .mk t _ _ _ => t

/-- Element attributes. -/
def Xml.attrs : Xml → List (String × String)
  | .mk _ a _ _ => a

/-- Element text (`None` modelled as the empty string). -/
def Xml.text : Xml → String
  | .mk _ _ tx _ => tx

/-- Element children. -/
def Xml.children : Xml → List Xml
  | .mk _ _ _ cs => cs

/-- `element.findall(f"./{tag}")`: direct children with the given tag. -/
def findallChild (x : Xml) (t : String) : List Xml :=
  x.children.filter (fun c => c.tag = t)

/-- `element.find(f"./{tag}")`: first direct child with the given tag. -/
def findChild (x : Xml) (t : String) : Option Xml :=
  x.children.find? (fun c => c.tag = t)

/-- `element.get(key, default)`: attribute lookup. -/
def attrGet (x : Xml) (k d : String) : String :=
  match x.attrs.find? (fun e => e.1 = k) with
  | some e => e.2
  | none => d

/-- Information about a text run within a paragraph (`RunInfo` from
`ooxml_layer.py`); the serialized `rPr_xml` bytes are modelled by the `rPr`
subtree itself, with `<w:rPr/>` as the default for runs without properties. -/
structure RunInfo where
  text : String
  rPr_xml : Xml
  start_pos : Nat
  xml_element : Xml

/-- Information about a paragraph (`ParagraphInfo` from `ooxml_layer.py`).
The `metadata` dict carries nothing any verified property reads and is
omitted. -/
structure ParagraphInfo where
  text : String
  normalized : String
  runs : List RunInfo
  style_sig : String
  xml_path : Nat × Nat × Nat
  xml_element : Xml

/-- A structural block (`Block` from `ooxml_layer.py`). -/
structure Block where
  kind : String
  xml_element : Xml
  paragraphs : List ParagraphInfo

/-- `_get_run_properties_xml`: the run's `<w:rPr>` subtree, or an empty
`<w:rPr/>` when absent. -/
def get_run_properties_xml (run_element : Xml) : Xml :=
  (findChild run_element "w:rPr").getD (.mk "w:rPr" [] "" [])

/-- The text `enumerate_runs` extracts from one `<w:r>`: concatenation of the
texts of its direct `<w:t>` children (falsy texts are skipped before
appending, which does not change the concatenation). -/
def runTText (run_element : Xml) : String :=
  joinSep "" (((findallChild run_element "w:t").filter
    (fun t => t.text ≠ "")).map Xml.text)

/-- The run-accumulation loop of `enumerate_runs` (`ooxml_layer.py` lines
119-138), tracking the running character offset. -/
def enumerateRunsGo : List Xml → Nat → List RunInfo
  | [], _ => []
  | r :: rest, pos =>
      let run_text := runTText r
      ⟨run_text, get_run_properties_xml r, pos, r⟩ ::
        enumerateRunsGo rest (pos + run_text.length)

/-- `enumerate_runs` from `ooxml_layer.py`: the direct `<w:r>` children of a
paragraph with their `<w:t>` text, properties and start offsets. -/
def enumerate_runs (p_element : Xml) : List RunInfo :=
  enumerateRunsGo (findallChild p_element "w:r") 0

/-- The visible text of one run as computed by `python-docx`'s `Run.text`
(model of the external library): `<w:t>` children contribute their text,
`<w:tab>` a tab character, `<w:br>`/`<w:cr>` a newline, anything else
nothing. -/
def docxRunText (run_element : Xml) : String :=
  joinSep "" (run_element.children.map (fun c =>
    if c.tag = "w:t" then c.text
    else if c.tag = "w:tab" then "\t"
    else if c.tag = "w:br" ∨ c.tag = "w:cr" then "\n"
    else ""))

/-- `paragraph.text` as computed by `python-docx` (model of the external
library): the concatenated `Run.text` of the direct `<w:r>` children. -/
def docxParagraphText (p_element : Xml) : String :=
  joinSep "" ((findallChild p_element "w:r").map docxRunText)

/-- `_compute_style_signature` from `ooxml_layer.py`: the sorted, pipe-joined
property list.  The final SHA-1 hex digest is modelled as the identity on the
signature string (an injective fingerprint). -/
def compute_style_signature (paragraph_element : Xml) : String :=
  let pPr := findChild paragraph_element "w:pPr"
  let props₀ : List String :=
    match pPr.bind (fun p => findChild p "w:pStyle") with
    | some ps => ["pStyle:" ++ attrGet ps "w:val" ""]
    | none => []
  let props₁ : List String :=
    match pPr.bind (fun p => findChild p "w:numPr") with
    | some numPr =>
        (match findChild numPr "w:ilvl" with
          | some ilvl => ["ilvl:" ++ attrGet ilvl "w:val" ""]
          | none => []) ++
        (match findChild numPr "w:numId" with
          | some numId => ["numId:" ++ attrGet numId "w:val" ""]
          | none => [])
    | none => []
  let props₂ : List String :=
    match pPr.bind (fun p => findChild p "w:ind") with
    | some ind =>
        (if attrGet ind "w:left" "" ≠ "" then
          ["indLeft:" ++ attrGet ind "w:left" ""] else []) ++
        (if attrGet ind "w:right" "" ≠ "" then
          ["indRight:" ++ attrGet ind "w:right" ""] else [])
    | none => []
  let props₃ : List String :=
    match pPr.bind (fun p => findChild p "w:jc") with
    | some jc => ["jc:" ++ attrGet jc "w:val" ""]
    | none => []
  joinSep "|" (sortBy (fun a b => (a ≤ b : Bool))
    (props₀ ++ props₁ ++ props₂ ++ props₃))

/-- Build the `ParagraphInfo` of one paragraph element, as every branch of
`enumerate_paragraphs` does (`ooxml_layer.py` lines 149-176): `python-docx`
text, normalization, runs, and style signature. -/
def paragraphInfoOf (p_element : Xml) (xml_path : Nat × Nat × Nat) :
    ParagraphInfo :=
  let text := docxParagraphText p_element
  ⟨text, normalize_for_compare text, enumerate_runs p_element,
    compute_style_signature p_element, xml_path, p_element⟩

/-- `enumerate_paragraphs` from `ooxml_layer.py`: a paragraph block yields its
own info; a table yields the infos of all `<w:p>` elements of all cells in
row-major order; the body never passes other block kinds (headers and footers
are not part of the body tree). -/
def enumerate_paragraphs (block : Xml) (section_idx block_idx : Nat) :
    List ParagraphInfo :=
  if block.tag = "w:p" then
    [paragraphInfoOf block (section_idx, block_idx, 0)]
  else if block.tag = "w:tbl" then
    (((findallChild block "w:tr").map (fun row =>
        (findallChild row "w:tc").map (fun cell =>
          findallChild cell "w:p"))).flatten.flatten).enum.map
      (fun e => paragraphInfoOf e.2 (section_idx, block_idx, e.1))
  else []

/-- `enumerate_blocks` from `ooxml_layer.py`: walk the body's direct children
in order; `<w:p>` and `<w:tbl>` become blocks (with a running block index),
`<w:sectPr>` and anything else are skipped. -/
def enumerate_blocks (body : Xml) : List Block :=
  (body.children.foldl
    (fun (st : List Block × Nat) child =>
      let (blocks, block_idx) := st
      if child.tag = "w:p" then
        (blocks ++ [⟨"paragraph", child, enumerate_paragraphs child 0 block_idx⟩],
          block_idx + 1)
      else if child.tag = "w:tbl" then
        (blocks ++ [⟨"table", child, enumerate_paragraphs child 0 block_idx⟩],
          block_idx + 1)
      else (blocks, block_idx))
    ([], 0)).1

end Litera

namespace Litera

/-! ## Revision rewriter (`backend/app/services/ooxml_rewriter.py`) -/

/-- `element.set(key, value)`: replace an existing attribute or append it. -/
def attrSet (attrs : List (String × String)) (k v : String) :
    List (String × String) :=
  if attrs.any (fun e => e.1 = k) then
    attrs.map (fun e => if e.1 = k then (e.1, v) else e)
  else attrs ++ [(k, v)]

/-- Replace the first child satisfying the predicate by its image under `f`. -/
def updateFirstChild (p : Xml → Bool) (f : Xml → Xml) : List Xml → List Xml
  | [] => []
  | c :: cs => if p c then f c :: cs else c :: updateFirstChild p f cs

/-- Set `w:val` on the `<w:color>` child of an `<w:rPr>`, appending the child
first when absent (`_apply_brand_color`, `ooxml_rewriter.py` lines 42-54). -/
def setColorOnRPr (hex : String) (rPr : Xml) : Xml :=
  if (findChild rPr "w:color").isSome then
    .mk rPr.tag rPr.attrs rPr.text
      (updateFirstChild (fun c => c.tag = "w:color")
        (fun c => .mk c.tag (attrSet c.attrs "w:val" hex) c.text c.children)
        rPr.children)
  else
    .mk rPr.tag rPr.attrs rPr.text
      (rPr.children ++ [.mk "w:color" [("w:val", hex)] "" []])

/-- Set `w:val="1"` on the `<w:strike>` child of an `<w:rPr>`, appending the
child first when absent (`wrap_with_del`, lines 210-215). -/
def setStrikeOnRPr (rPr : Xml) : Xml :=
  if (findChild rPr "w:strike").isSome then
    .mk rPr.tag rPr.attrs rPr.text
      (updateFirstChild (fun c => c.tag = "w:strike")
        (fun c => .mk c.tag (attrSet c.attrs "w:val" "1") c.text c.children)
        rPr.children)
  else
    .mk rPr.tag rPr.attrs rPr.text
      (rPr.children ++ [.mk "w:strike" [("w:val", "1")] "" []])

/-- `_ensure_rPr` followed by a transformation of the `<w:rPr>`: apply `f` to
the run's first `<w:rPr>` child, inserting a fresh empty one at position 0
when missing (appending when the run has no children — the same child list
either way). -/
def withRPr (f : Xml → Xml) (run_element : Xml) : Xml :=
  if (findChild run_element "w:rPr").isSome then
    .mk run_element.tag run_element.attrs run_element.text
      (updateFirstChild (fun c => c.tag = "w:rPr") f run_element.children)
  else
    .mk run_element.tag run_element.attrs run_element.text
      (f (.mk "w:rPr" [] "" []) :: run_element.children)

/-- The per-run mutation `wrap_with_ins` applies under `force_brand_color`:
`_apply_brand_color(run, COLOR_INSERT)` with blue-800 = `1e3a8a`. -/
def brandColorInsRun (run_element : Xml) : Xml :=
  withRPr (setColorOnRPr "1e3a8a") run_element

/-- The per-run mutation `wrap_with_del` applies under `force_brand_color`:
`_apply_brand_color(run, COLOR_DELETE)` (red-700 = `b91c1c`) followed by the
strike-through. -/
def brandColorDelRun (run_element : Xml) : Xml :=
  withRPr setStrikeOnRPr (withRPr (setColorOnRPr "b91c1c") run_element)

/-- The move-pair brand color `COLOR_MOVE` (emerald-800 = `065f46`). -/
def brandColorMoveRun (run_element : Xml) : Xml :=
  withRPr (setColorOnRPr "065f46") run_element

mutual

/-- `wrapper.findall(".//w:r")` + in-place mutation of every found run,
functionally: apply the run transformation to every descendant (and self)
with tag `w:r`. -/
def mapRuns (f : Xml → Xml) : Xml → Xml
  | .mk tg a tx cs =>
      let x := Xml.mk tg a tx (mapRunsList f cs)
      if tg = "w:r" then f x else x

/-- `mapRuns` over a child list. -/
def mapRunsList (f : Xml → Xml) : List Xml → List Xml
  | [] => []
  | c :: cs => mapRuns f c :: mapRunsList f cs

end

/-- `wrap_with_ins` from `ooxml_rewriter.py`: a `<w:ins>` wrapper carrying
author and date, containing the element; with `force_brand_color`, every
descendant run receives the insert brand color.  The `datetime.now()`
default and `isoformat` are modelled by passing the date string. -/
def wrap_with_ins (element : Xml) (author date : String)
    (force_brand_color : Bool) : Xml :=
  let inner := if force_brand_color then mapRunsList brandColorInsRun [element]
    else [element]
  .mk "w:ins" [("w:author", author), ("w:date", date)] "" inner

/-- `wrap_with_del` from `ooxml_rewriter.py`: a `<w:del>` wrapper containing
the element; with `force_brand_color`, every descendant run receives the
delete brand color and strike-through.  No `<w:t>` child is rewritten to
`<w:delText>` anywhere in this function. -/
def wrap_with_del (element : Xml) (author date : String)
    (force_brand_color : Bool) : Xml :=
  let inner := if force_brand_color then mapRunsList brandColorDelRun [element]
    else [element]
  .mk "w:del" [("w:author", author), ("w:date", date)] "" inner

/-- `create_move_pair` from `ooxml_rewriter.py`: `<w:moveFrom>` and
`<w:moveTo>` wrappers each containing one fresh run with one `<w:t>` text
element (not `<w:delText>`), brand-colored when requested. -/
def create_move_pair (move_from_text move_to_text author date : String)
    (force_brand_color : Bool) : Xml × Xml :=
  let mk_run (tx : String) : Xml := .mk "w:r" [] "" [.mk "w:t" [] tx []]
  let from_run := if force_brand_color then brandColorMoveRun (mk_run move_from_text)
    else mk_run move_from_text
  let to_run := if force_brand_color then brandColorMoveRun (mk_run move_to_text)
    else mk_run move_to_text
  (.mk "w:moveFrom" [("w:author", author), ("w:date", date)] "" [from_run],
   .mk "w:moveTo" [("w:author", author), ("w:date", date)] "" [to_run])

mutual

/-- Count the subtree nodes with the given tag. -/
def countTag (t : String) : Xml → Nat
  | .mk tg _ _ cs => (if tg = t then 1 else 0) + countTagList t cs

/-- `countTag` over a child list. -/
def countTagList (t : String) : List Xml → Nat
  | [] => 0
  | c :: cs => countTag t c + countTagList t cs

end

mutual

/-- Remove every subtree whose root tag is in `tags` (used to state the
spec's text-conservation property about `del`/`moveFrom` and
`ins`/`moveTo` stripping). -/
def stripTags (tags : List String) : Xml → Option Xml
  | .mk tg a tx cs =>
      if tg ∈ tags then none
      else some (.mk tg a tx (stripTagsList tags cs))

/-- `stripTags` over a child list. -/
def stripTagsList (tags : List String) : List Xml → List Xml
  | [] => []
  | c :: cs =>
      match stripTags tags c with
      | some c' => c' :: stripTagsList tags cs
      | none => stripTagsList tags cs

end

mutual

/-- The visible text content of a tree: concatenated text of `<w:t>` and
`<w:delText>` elements, in document order. -/
def textContent : Xml → String
  | .mk tg _ tx cs =>
      (if tg = "w:t" ∨ tg = "w:delText" then tx else "") ++ textContentList cs

/-- `textContent` over a child list. -/
def textContentList : List Xml → String
  | [] => ""
  | c :: cs => textContent c ++ textContentList cs

end

/-- `apply_revision_tracking` from `ooxml_rewriter.py` (lines 274-302): the
function is a placeholder — its body ignores the diff result and returns the
original document unchanged ("For now, return the document as-is"). -/
def apply_revision_tracking (original_doc : Xml)
    (_diff_result : List (Int × Int)) (_force_brand_colors : Bool) : Xml :=
  original_doc

end Litera

namespace Litera

/-! ## The OOXML comparison pipeline (`compare_engine.py` lines 446-948) -/

/-- `_align_paragraphs_patience` from `compare_engine.py`: hash each
paragraph as `normalized + "|" + style_sig` (every `ParagraphInfo` carries
both attributes, so the `hasattr` branches always take the attribute path)
and align with `_align_patience_myers` under its default identity hash. -/
def align_paragraphs_patience (original_paragraphs modified_paragraphs :
    List ParagraphInfo) : Option (List (Int × Int)) :=
  let orig_hashes := original_paragraphs.map
    (fun para => para.normalized ++ "|" ++ para.style_sig)
  let mod_hashes := modified_paragraphs.map
    (fun para => para.normalized ++ "|" ++ para.style_sig)
  align_patience_myers id orig_hashes mod_hashes

/-- `_diff_runs_inline` from `compare_engine.py`: join the run texts,
tokenize, join the tokens with NUL separators, obtain the character diff from
diff-match-patch — an external library, passed in as `dmp_main` returning
`(op, text)` chunks — and convert the chunks to opcodes positioned in the
NUL-joined token strings. -/
def diff_runs_inline (dmp_main : String → String → List (Int × String))
    (original_runs modified_runs : List String) : List Opcode :=
  let orig_text := joinSep "" original_runs
  let mod_text := joinSep "" modified_runs
  let orig_tokens := tokenize_for_diff orig_text "word"
  let mod_tokens := tokenize_for_diff mod_text "word"
  let orig_token_str := joinSep "\x00" orig_tokens
  let mod_token_str := joinSep "\x00" mod_tokens
  let diffs := dmp_main orig_token_str mod_token_str
  (diffs.foldl
    (fun (st : List Opcode × Nat × Nat) d =>
      let (opcodes, orig_pos, mod_pos) := st
      let (op, text) := d
      if op = 0 then
        (opcodes ++ [⟨.equal, orig_pos, orig_pos + text.length,
          mod_pos, mod_pos + text.length⟩],
          orig_pos + text.length, mod_pos + text.length)
      else if op = -1 then
        (opcodes ++ [⟨.delete, orig_pos, orig_pos + text.length, mod_pos, mod_pos⟩],
          orig_pos + text.length, mod_pos)
      else if op = 1 then
        (opcodes ++ [⟨.insert, orig_pos, orig_pos, mod_pos, mod_pos + text.length⟩],
          orig_pos, mod_pos + text.length)
      else st)
    ([], 0, 0)).1

/-- The stats record returned by the engine (`Stats` from
`models/schemas.py`). -/
structure Stats where
  insertions : Nat
  deletions : Nat
  moves : Nat
  total : Nat
deriving DecidableEq, Repr

/-- The caller-supplied options `run_compare_ooxml` reads (lines 806-810),
already coerced to their `int`/`float`/`bool` types; the float threshold is
modelled as an exact rational. -/
structure CompareOptions where
  shingle_size : Int
  jaccard_threshold : ℚ
  min_move_span_tokens : Int
  force_brand_colors : Bool

/-- The default options of `run_compare_ooxml`. -/
def defaultOptions : CompareOptions :=
  ⟨5, 17/20, 12, false⟩

/-- One entry of the `revision_operations` list built by
`run_compare_ooxml`. -/
inductive RevisionOp : Type where
  | insertPara (para_idx : Int) (paragraph : ParagraphInfo)
  | deletePara (para_idx : Int) (paragraph : ParagraphInfo)
  | replacePara (orig_para_idx mod_para_idx : Int)
      (orig_para mod_para : ParagraphInfo) (operations : List ClassifiedOp)

/-- The value `run_compare_ooxml` returns: the revision-tracked document (the
serialization to bytes is the identity on the tree model), the stats, and the
metadata (alignment pairs and operation count). -/
structure CompareResult where
  document : Xml
  stats : Stats
  pairs : List (Int × Int)
  revision_operations : Nat

/-- The per-pair body of the main loop of `run_compare_ooxml` (lines
836-914).  State: (insertions, deletions, moves, revision operations).
Indexing a paragraph list out of range would raise; `-1` marks gaps as in the
source's `if orig_idx >= 0` guards. -/
def comparePairStep (opts : CompareOptions)
    (dmp_main : String → String → List (Int × String))
    (orig_paragraphs mod_paragraphs : List ParagraphInfo)
    (st : Nat × Nat × Nat × List RevisionOp) (pr : Int × Int) :
    Option (Nat × Nat × Nat × List RevisionOp) := do
  let (ins, dels, movs, ops) := st
  let (orig_idx, mod_idx) := pr
  let orig_para? : Option ParagraphInfo ←
    if 0 ≤ orig_idx then
      (orig_paragraphs.get? orig_idx.toNat).map some
    else some none
  let mod_para? : Option ParagraphInfo ←
    if 0 ≤ mod_idx then
      (mod_paragraphs.get? mod_idx.toNat).map some
    else some none
  match orig_para?, mod_para? with
  | none, none => some st
  | none, some mod_para =>
      some (ins + 1, dels, movs, ops ++ [.insertPara mod_idx mod_para])
  | some orig_para, none =>
      some (ins, dels + 1, movs, ops ++ [.deletePara orig_idx orig_para])
  | some orig_para, some mod_para =>
      let orig_text := orig_para.text
      let mod_text := mod_para.text
      if orig_text = mod_text then some st
      else
        let orig_tokens := tokenize_for_diff orig_text "word"
        let mod_tokens := tokenize_for_diff mod_text "word"
        let orig_runs := orig_para.runs.map RunInfo.text
        let mod_runs := mod_para.runs.map RunInfo.text
        let opcodes := diff_runs_inline dmp_main orig_runs mod_runs
        let classified := classify_operations_with_moves opcodes
          orig_text mod_text orig_tokens mod_tokens
          opts.shingle_size opts.jaccard_threshold opts.min_move_span_tokens
        let counted := classified.foldl
          (fun (c : Nat × Nat × Nat) cl =>
            match cl.tag with
            | .insert => if cl.is_move then (c.1, c.2.1, c.2.2 + 1)
                else (c.1 + 1, c.2.1, c.2.2)
            | .delete => if cl.is_move then (c.1, c.2.1, c.2.2 + 1)
                else (c.1, c.2.1 + 1, c.2.2)
            | _ => c)
          (ins, dels, movs)
        some (counted.1, counted.2.1, counted.2.2,
          ops ++ [.replacePara orig_idx mod_idx orig_para mod_para classified])

/-- `run_compare_ooxml` from `compare_engine.py`, over loaded document
bodies.  `load_docx` (ZIP and XML parsing) is modelled by taking the already
parsed body trees; the `document.save` serialization at the end is the
identity on the tree model.  The diff-match-patch dependency of
`_diff_runs_inline` is the external `dmp_main` argument. -/
def run_compare_ooxml (orig_doc mod_doc : Xml) (opts : CompareOptions)
    (dmp_main : String → String → List (Int × String)) :
    Option CompareResult := do
  let orig_blocks := enumerate_blocks orig_doc
  let mod_blocks := enumerate_blocks mod_doc
  let orig_paragraphs := (orig_blocks.map Block.paragraphs).flatten
  let mod_paragraphs := (mod_blocks.map Block.paragraphs).flatten
  let para_pairs ← align_paragraphs_patience orig_paragraphs mod_paragraphs
  let st ← para_pairs.foldlM
    (comparePairStep opts dmp_main orig_paragraphs mod_paragraphs)
    (0, 0, 0, [])
  let (total_insertions, total_deletions, total_moves, revision_operations) := st
  let stats : Stats := ⟨total_insertions, total_deletions, total_moves,
    total_insertions + total_deletions + total_moves⟩
  let revised_doc := apply_revision_tracking orig_doc para_pairs
    opts.force_brand_colors
  some ⟨revised_doc, stats, para_pairs, revision_operations.length⟩

end Litera

namespace Litera

/-! ## Concrete instances used by the analyses -/

/-- A document body with a single paragraph holding a single run with the
given text. -/
def paraDoc (t : String) : Xml :=
  .mk "w:body" [] "" [.mk "w:p" [] "" [.mk "w:r" [] "" [.mk "w:t" [] t []]]]

/-- A paragraph whose run contains a tab between two text elements. -/
def tabParagraph : Xml :=
  .mk "w:p" [] ""
    [.mk "w:r" [] "" [.mk "w:t" [] "a" [], .mk "w:tab" [] "" [], .mk "w:t" [] "b" []]]

/-- Twelve single-character tokens (at the default minimum move span). -/
def tokens12 : List String :=
  ["a", "b", "c", "d", "e", "f", "g", "h", "i", "j", "k", "l"]

/-- The corresponding twelve-character text. -/
def text12 : String := "abcdefghijkl"

/-- A full-text delete followed by a full-text insert of identical content:
the move detector matches them as a pair. -/
def movePairOpcodes : List Opcode :=
  [⟨.delete, 0, 12, 0, 0⟩, ⟨.insert, 12, 12, 0, 12⟩]

/-- Positions with a given hash in a list, starting the numbering at `j`
(specification of `buildModHashMap`'s per-key lists). -/
def hashPositions (hash_fn : String → String) (k : String) :
    List String → Nat → List Nat
  | [], _ => []
  | x :: rest, j =>
      (if hash_fn x = k then [j] else []) ++ hashPositions hash_fn k rest (j + 1)

/-- The diagonal match list `[(0,0), …, (n-1,n-1)]`. -/
def diagPairs (n : Nat) : List (Nat × Nat) :=
  (List.range n).map (fun i => (i, i))

/-- The diagonal alignment `[(0,0), …, (n-1,n-1)]` over `Int`. -/
def diagPairsInt (n : Nat) : List (Int × Int) :=
  (List.range n).map (fun (i : Nat) => ((i : Int), (i : Int)))

/-- The pile state reached by patience sorting on a strictly increasing value
sequence: singleton piles. -/
def pilesN (n : Nat) : List (List (Nat × Nat)) :=
  (List.range n).map (fun k => [(k, k)])

/-- The predecessor map reached by patience sorting on the diagonal: each
index points to its predecessor, newest first. -/
def predsN : Nat → List (Nat × Option Nat)
  | 0 => []
  | k + 1 => (k, if k = 0 then none else some (k - 1)) :: predsN k

end Litera

namespace Litera

/-! ## Theorems -/

theorem mem_listWindows_length {w : Nat} :
    ∀ {l : List Char} {cs : List Char}, cs ∈ listWindows w l → cs.length = w := by
  intro l
  induction l with
  | nil => intro cs h; simp [listWindows] at h
  | cons c rest ih =>
      intro cs h
      rw [listWindows] at h
      by_cases hw : w ≤ (c :: rest).length
      · rw [if_pos hw] at h
        rcases List.mem_cons.mp h with h1 | h2
        · subst h1; exact List.length_take_of_le hw
        · exact ih h2
      · rw [if_neg hw] at h; simp at h

theorem mem_char_ngrams_length {t : String} {w : Int} {s : String}
    (h : s ∈ char_ngrams t w) : (s.length : Int) = w := by
  rw [char_ngrams] at h
  by_cases hc : w ≤ 0 ∨ t = "" ∨ (t.length : Int) < w
  · rw [if_pos hc] at h; simp at h
  · rw [if_neg hc] at h
    rcases List.mem_map.mp h with ⟨cs, hcs, rfl⟩
    have hlen : cs.length = w.toNat := mem_listWindows_length hcs
    push_neg at hc
    have hw : 0 < w := hc.1
    show ((String.mk cs).length : Int) = w
    have : (String.mk cs).length = cs.length := rfl
    rw [this, hlen, Int.toNat_of_nonneg (le_of_lt hw)]

theorem mem_foldl_setAdd {P : String → Prop} :
    ∀ (l : List String) (acc : List String),
      (∀ x ∈ acc, P x) → (∀ x ∈ l, P x) → ∀ x ∈ l.foldl setAdd acc, P x := by
  intro l
  induction l with
  | nil => intro acc hacc _ x hx; exact hacc x hx
  | cons y rest ih =>
      intro acc hacc hl x hx
      refine ih (setAdd acc y) ?_ (fun z hz => hl z (List.mem_cons_of_mem _ hz)) x hx
      intro z hz
      rw [setAdd] at hz
      by_cases hmem : y ∈ acc
      · rw [if_pos hmem] at hz; exact hacc z hz
      · rw [if_neg hmem] at hz
        rcases List.mem_append.mp hz with h1 | h2
        · exact hacc z h1
        · rcases List.mem_singleton.mp h2 with rfl
          exact hl z (List.mem_cons_self _ _)

theorem mem_build_ngram_index_length {paragraphs : List String} {s : String}
    (h : s ∈ build_ngram_index paragraphs 15) : s.length = 15 := by
  rw [build_ngram_index] at h
  have main : ∀ (ps : List String) (acc : List String),
      (∀ x ∈ acc, x.length = 15) →
      ∀ x ∈ ps.foldl
        (fun index p => (char_ngrams (normalize_for_compare p) 15).foldl setAdd index)
        acc, x.length = 15 := by
    intro ps
    induction ps with
    | nil => intro acc hacc x hx; exact hacc x hx
    | cons p rest ih =>
        intro acc hacc x hx
        refine ih _ ?_ x hx
        intro z hz
        refine mem_foldl_setAdd _ acc hacc ?_ z hz
        intro y hy
        have := mem_char_ngrams_length hy
        exact_mod_cast this
  exact main paragraphs [] (by simp) s h

/-- C10: in the legacy HTML path a deleted (resp. inserted) segment is
classified as a move (`diff-move` CSS class) iff its exact raw text is a
member of the other document's set of 15-character normalized n-grams; in
particular a segment whose raw text is not of length 15 is never classified
as a move. -/
theorem legacy_move_iff_ngram (paragraphs : List String) (seg : String) :
    (classify_delete_segment seg (build_ngram_index paragraphs 15) =
        "diff-move line-through" ↔ seg ∈ build_ngram_index paragraphs 15) ∧
    (classify_insert_segment seg (build_ngram_index paragraphs 15) =
        "diff-move" ↔ seg ∈ build_ngram_index paragraphs 15) ∧
    (seg.length ≠ 15 →
      classify_delete_segment seg (build_ngram_index paragraphs 15) =
          "diff-delete line-through" ∧
      classify_insert_segment seg (build_ngram_index paragraphs 15) =
          "diff-insert") := by
  refine ⟨?_, ?_, ?_⟩
  · rw [classify_delete_segment]
    by_cases hmem : seg ∈ build_ngram_index paragraphs 15
    · simp [hmem]
    · simp [hmem]
  · rw [classify_insert_segment]
    by_cases hmem : seg ∈ build_ngram_index paragraphs 15
    · simp [hmem]
    · simp [hmem]
  · intro hlen
    have hmem : seg ∉ build_ngram_index paragraphs 15 := by
      intro hc; exact hlen (mem_build_ngram_index_length hc)
    rw [classify_delete_segment, classify_insert_segment, if_neg hmem, if_neg hmem]
    exact ⟨rfl, rfl⟩

theorem legacy_move_iff_ngram_witness :
    ("xy" : String).length ≠ 15 ∧
    classify_delete_segment "xy" (build_ngram_index ["some paragraph text"] 15) =
      "diff-delete line-through" ∧
    classify_insert_segment "xy" (build_ngram_index ["some paragraph text"] 15) =
      "diff-insert" :=
  ⟨by decide, (legacy_move_iff_ngram ["some paragraph text"] "xy").2.2 (by decide)⟩

/-- C9: `_align_patience_myers` is not total — on `(["x","a"], ["a"])` the
greedy matcher produces the single match `(1, 0)`, the LIS reconstruction
yields the original index `1`, and `sorted_matches[1]` is out of range for
the one-element match list, raising `IndexError` (modelled as `none`). -/
theorem aligner_index_error_counterexample :
    align_patience_myers id ["x", "a"] ["a"] = none := by decide

/-- C2: equal elements inside a Myers-fallback region receive no row at all.
On `(["v","a","v"], ["a","v"])` the aligner returns `[(0,-1), (1,0)]`: the
trailing gap `["v"]` vs `["v"]` goes to `_myers_diff`, whose backtracking
drops equal steps without emitting opcodes, so original index 2 and modified
index 1 appear in no row — contradicting one-row-per-element. -/
theorem myers_gap_equal_rows_dropped :
    align_patience_myers id ["v", "a", "v"] ["a", "v"] =
      some [(0, -1), (1, 0)] ∧
    (∀ pr ∈ [((0 : Int), (-1 : Int)), (1, 0)], pr.1 ≠ 2 ∧ pr.2 ≠ 1) := by
  constructor
  · decide
  · decide

/-- C3: the alignment is not monotone.  On `(["u","p","q","r"],
["r","p","q"])` the LIS entries are original indices `1` and `2`, but the code
reads `sorted_matches[orig_i]` as if `orig_i` were a position in the match
list, pairing original 1 with modified 2 and original 2 with modified 0; the
non-gap modified indices `[0,1,2,0,1,2]` are neither strictly increasing nor
duplicate-free. -/
theorem aligner_nonmonotone_counterexample :
    align_patience_myers id ["u", "p", "q", "r"] ["r", "p", "q"] =
      some [(0, -1), (-1, 0), (-1, 1), (1, 2), (2, 0), (3, -1), (-1, 1), (-1, 2)] ∧
    ¬ List.Pairwise (· < ·)
      (([((0 : Int), (-1 : Int)), (-1, 0), (-1, 1), (1, 2), (2, 0), (3, -1),
          (-1, 1), (-1, 2)].map Prod.snd).filter (fun j => 0 ≤ j)) := by
  constructor
  · decide
  · decide

end Litera

namespace Litera

/-- C1: text conservation fails because `apply_revision_tracking` is a
placeholder returning the original document unchanged.  Comparing a one-
paragraph document with text `"a"` against one with text `"b"` emits the
original document: it contains no `del`/`moveFrom` (or `ins`/`moveTo`)
elements, and stripping `del`/`moveFrom` subtrees leaves text `"a"`, not the
modified input's text `"b"`. -/
theorem rewriter_placeholder_breaks_conservation :
    run_compare_ooxml (paraDoc "a") (paraDoc "b") defaultOptions (fun _ _ => []) =
      some ⟨paraDoc "a", ⟨1, 1, 0, 2⟩, [(0, -1), (-1, 0)], 2⟩ ∧
    (stripTags ["w:del", "w:moveFrom"] (paraDoc "a")).map textContent = some "a" ∧
    textContent (paraDoc "b") = "b" ∧ ("a" : String) ≠ "b" := by
  refine ⟨rfl, rfl, rfl, by decide⟩

/-- C5: no option validation exists — a negative shingle size and a Jaccard
threshold outside `[0,1]` are accepted, the comparison runs, and a result is
produced (here on a self-comparison, with zero differences). -/
theorem invalid_options_accepted :
    run_compare_ooxml (paraDoc "a") (paraDoc "a")
        ⟨-3, 3/2, 12, false⟩ (fun _ _ => []) =
      some ⟨paraDoc "a", ⟨0, 0, 0, 0⟩, [(0, 0)], 0⟩ := rfl

end Litera

namespace Litera

theorem countTag_eta (t : String) (x : Xml) :
    countTag t x = (if x.tag = t then 1 else 0) + countTagList t x.children := by
  cases x; rfl

theorem countTagList_append (t : String) (l₁ l₂ : List Xml) :
    countTagList t (l₁ ++ l₂) = countTagList t l₁ + countTagList t l₂ := by
  induction l₁ with
  | nil => simp [countTagList]
  | cons c cs ih => simp [countTagList, ih]; ring

theorem countTagList_updateFirstChild {t : String} {p : Xml → Bool}
    {f : Xml → Xml} (hf : ∀ c, p c → countTag t (f c) = countTag t c) :
    ∀ cs : List Xml, countTagList t (updateFirstChild p f cs) = countTagList t cs := by
  intro cs
  induction cs with
  | nil => rfl
  | cons c rest ih =>
      rw [updateFirstChild]
      by_cases hp : p c
      · rw [if_pos hp]
        show countTag t (f c) + countTagList t rest = _
        rw [hf c hp]; rfl
      · rw [if_neg hp]
        show countTag t c + countTagList t (updateFirstChild p f rest) = _
        rw [ih]; rfl

theorem countTag_setColorOnRPr {t : String} (ht : t ≠ "w:color") (hex : String)
    (rPr : Xml) : countTag t (setColorOnRPr hex rPr) = countTag t rPr := by
  rw [setColorOnRPr]
  by_cases hc : (findChild rPr "w:color").isSome
  · rw [if_pos hc, countTag_eta t rPr]
    show (if rPr.tag = t then 1 else 0) + _ = _
    congr 1
    refine countTagList_updateFirstChild ?_ rPr.children
    intro c hpc
    rw [countTag_eta]
    show (if c.tag = t then 1 else 0) + countTagList t c.children = countTag t c
    rw [countTag_eta t c]
  · rw [if_neg hc, countTag_eta t rPr]
    show (if rPr.tag = t then 1 else 0) + _ = _
    congr 1
    rw [countTagList_append]
    show countTagList t rPr.children +
      countTag t (.mk "w:color" [("w:val", hex)] "" []) + 0 * 0 = _
    have : countTag t (Xml.mk "w:color" [("w:val", hex)] "" []) = 0 := by
      show (if "w:color" = t then 1 else 0) + 0 = 0
      rw [if_neg (fun h => ht h.symm)]
    rw [this]; ring

theorem countTag_setStrikeOnRPr {t : String} (ht : t ≠ "w:strike")
    (rPr : Xml) : countTag t (setStrikeOnRPr rPr) = countTag t rPr := by
  rw [setStrikeOnRPr]
  by_cases hc : (findChild rPr "w:strike").isSome
  · rw [if_pos hc, countTag_eta t rPr]
    show (if rPr.tag = t then 1 else 0) + _ = _
    congr 1
    refine countTagList_updateFirstChild ?_ rPr.children
    intro c hpc
    rw [countTag_eta]
    show (if c.tag = t then 1 else 0) + countTagList t c.children = countTag t c
    rw [countTag_eta t c]
  · rw [if_neg hc, countTag_eta t rPr]
    show (if rPr.tag = t then 1 else 0) + _ = _
    congr 1
    rw [countTagList_append]
    have : countTag t (Xml.mk "w:strike" [("w:val", "1")] "" []) = 0 := by
      show (if "w:strike" = t then 1 else 0) + 0 = 0
      rw [if_neg (fun h => ht h.symm)]
    show countTagList t rPr.children +
      countTag t (.mk "w:strike" [("w:val", "1")] "" []) = _
    rw [this]; ring

theorem countTag_withRPr {t : String} {f : Xml → Xml}
    (ht : t ≠ "w:rPr") (hf : ∀ rPr, rPr.tag = "w:rPr" → countTag t (f rPr) = countTag t rPr)
    (r : Xml) : countTag t (withRPr f r) = countTag t r := by
  rw [withRPr]
  by_cases hc : (findChild r "w:rPr").isSome
  · rw [if_pos hc, countTag_eta t r]
    show (if r.tag = t then 1 else 0) + _ = _
    congr 1
    refine countTagList_updateFirstChild ?_ r.children
    intro c hpc
    exact hf c (by simpa using hpc)
  · rw [if_neg hc, countTag_eta t r]
    show (if r.tag = t then 1 else 0) + _ = _
    congr 1
    show countTag t (f (.mk "w:rPr" [] "" [])) + countTagList t r.children = _
    rw [hf (.mk "w:rPr" [] "" []) rfl]
    show (if "w:rPr" = t then 1 else 0) + 0 + countTagList t r.children = _
    rw [if_neg (fun h => ht h.symm)]; ring

theorem countTag_brandColorDelRun {t : String}
    (ht : t ≠ "w:rPr") (htc : t ≠ "w:color") (hts : t ≠ "w:strike") (r : Xml) :
    countTag t (brandColorDelRun r) = countTag t r := by
  rw [brandColorDelRun]
  rw [countTag_withRPr ht (fun rPr _ => countTag_setStrikeOnRPr hts rPr)]
  exact countTag_withRPr ht (fun rPr _ => countTag_setColorOnRPr htc "b91c1c" rPr) r

mutual

theorem countTag_mapRuns {t : String} {f : Xml → Xml}
    (hf : ∀ x, countTag t (f x) = countTag t x) :
    ∀ x : Xml, countTag t (mapRuns f x) = countTag t x
  | .mk tg a tx cs => by
      rw [mapRuns]
      by_cases h : tg = "w:r"
      · rw [if_pos h, hf]
        show (if tg = t then 1 else 0) + countTagList t (mapRunsList f cs) = _
        rw [countTagList_mapRuns hf cs]; rfl
      · rw [if_neg h]
        show (if tg = t then 1 else 0) + countTagList t (mapRunsList f cs) = _
        rw [countTagList_mapRuns hf cs]; rfl

theorem countTagList_mapRuns {t : String} {f : Xml → Xml}
    (hf : ∀ x, countTag t (f x) = countTag t x) :
    ∀ cs : List Xml, countTagList t (mapRunsList f cs) = countTagList t cs
  | [] => rfl
  | c :: cs => by
      rw [mapRunsList]
      show countTag t (mapRuns f c) + countTagList t (mapRunsList f cs) = _
      rw [countTag_mapRuns hf c, countTagList_mapRuns hf cs]; rfl

end

/-- C6 (amended): the delete wrapper never rewrites text elements — the
`w:t` and `w:delText` tag counts of the wrapped content are exactly those of
the input (so contained `<t>` elements are NOT converted to `<delText>`),
and each side of a `create_move_pair` likewise carries its text in a `w:t`
element and no `delText`. -/
theorem del_wrapping_preserves_text_tags :
    (∀ (e : Xml) (author date : String) (force : Bool),
      countTag "w:delText" (wrap_with_del e author date force) =
        countTag "w:delText" e ∧
      countTag "w:t" (wrap_with_del e author date force) = countTag "w:t" e) ∧
    (∀ (ft tt author date : String) (force : Bool),
      countTag "w:t" (create_move_pair ft tt author date force).1 = 1 ∧
      countTag "w:delText" (create_move_pair ft tt author date force).1 = 0 ∧
      countTag "w:t" (create_move_pair ft tt author date force).2 = 1 ∧
      countTag "w:delText" (create_move_pair ft tt author date force).2 = 0) := by
  constructor
  · intro e author date force
    constructor
    · rw [wrap_with_del]
      cases force with
      | false =>
          show (if "w:del" = "w:delText" then 1 else 0) +
            (countTag "w:delText" e + 0) = _
          simp
      | true =>
          show (if "w:del" = "w:delText" then 1 else 0) +
            countTagList "w:delText" (mapRunsList brandColorDelRun [e]) = _
          rw [countTagList_mapRuns
            (countTag_brandColorDelRun (by decide) (by decide) (by decide))]
          show (if "w:del" = "w:delText" then 1 else 0) +
            (countTag "w:delText" e + 0) = _
          simp
    · rw [wrap_with_del]
      cases force with
      | false =>
          show (if "w:del" = "w:t" then 1 else 0) + (countTag "w:t" e + 0) = _
          simp
      | true =>
          show (if "w:del" = "w:t" then 1 else 0) +
            countTagList "w:t" (mapRunsList brandColorDelRun [e]) = _
          rw [countTagList_mapRuns
            (countTag_brandColorDelRun (by decide) (by decide) (by decide))]
          show (if "w:del" = "w:t" then 1 else 0) + (countTag "w:t" e + 0) = _
          simp
  · intro ft tt author date force
    cases force with
    | false => exact ⟨rfl, rfl, rfl, rfl⟩
    | true => exact ⟨rfl, rfl, rfl, rfl⟩

/-- C6 (counterexample): wrapping a run containing `<w:t>abc</w:t>` in
`wrap_with_del` leaves one `w:t` element and produces no `w:delText` — the
claimed `t`-to-`delText` conversion does not happen; the `moveFrom` side of
`create_move_pair` likewise contains a `w:t`, not a `delText`. -/
theorem del_wrapping_keeps_t :
    countTag "w:t"
      (wrap_with_del (.mk "w:r" [] "" [.mk "w:t" [] "abc" []]) "au" "d" false) = 1 ∧
    countTag "w:delText"
      (wrap_with_del (.mk "w:r" [] "" [.mk "w:t" [] "abc" []]) "au" "d" false) = 0 ∧
    countTag "w:t" (create_move_pair "x" "x" "au" "d" false).1 = 1 ∧
    countTag "w:delText" (create_move_pair "x" "x" "au" "d" false).1 = 0 := by
  exact ⟨rfl, rfl, rfl, rfl⟩

end Litera

namespace Litera

theorem str_append_empty (s : String) : s ++ "" = s := by
  cases s with
  | mk data => show String.mk (data ++ []) = String.mk data; rw [List.append_nil]

theorem str_empty_append (s : String) : "" ++ s = s := by
  cases s with
  | mk data => show String.mk ([] ++ data) = String.mk data; rw [List.nil_append]

theorem joinSep_empty_cons (x : String) (l : List String) :
    joinSep "" (x :: l) = x ++ joinSep "" l := by
  cases l with
  | nil =>
      show x = x ++ ""
      rw [str_append_empty]
  | cons y ys =>
      show x ++ "" ++ joinSep "" (y :: ys) = x ++ joinSep "" (y :: ys)
      rw [str_append_empty]

theorem length_joinSep_empty (l : List String) :
    (joinSep "" l).length = (l.map String.length).sum := by
  induction l with
  | nil => rfl
  | cons x xs ih => rw [joinSep_empty_cons, String.length_append, ih]; rfl

theorem enumerateRunsGo_map_text (rs : List Xml) (pos : Nat) :
    (enumerateRunsGo rs pos).map RunInfo.text = rs.map runTText := by
  induction rs generalizing pos with
  | nil => rfl
  | cons r rest ih =>
      show runTText r :: (enumerateRunsGo rest (pos + (runTText r).length)).map RunInfo.text
        = runTText r :: rest.map runTText
      rw [ih]

theorem enumerateRunsGo_start_pos (rs : List Xml) (pos : Nat) (k : Nat)
    (h : k < (enumerateRunsGo rs pos).length) :
    ((enumerateRunsGo rs pos).get ⟨k, h⟩).start_pos =
      pos + ((((enumerateRunsGo rs pos).take k).map
        (fun r => r.text.length)).sum) := by
  induction rs generalizing pos k with
  | nil => simp [enumerateRunsGo] at h
  | cons r rest ih =>
      cases k with
      | zero => simp [enumerateRunsGo]
      | succ k' =>
          have h' : k' < (enumerateRunsGo rest (pos + (runTText r).length)).length := by
            have : (enumerateRunsGo (r :: rest) pos).length =
                (enumerateRunsGo rest (pos + (runTText r).length)).length + 1 := rfl
            omega
          have step : (enumerateRunsGo (r :: rest) pos).get ⟨k' + 1, h⟩ =
              (enumerateRunsGo rest (pos + (runTText r).length)).get ⟨k', h'⟩ := rfl
          rw [step, ih (pos + (runTText r).length) k' h']
          have take_step : ((enumerateRunsGo (r :: rest) pos).take (k' + 1)).map
              (fun r => r.text.length) =
              (runTText r).length ::
                ((enumerateRunsGo rest (pos + (runTText r).length)).take k').map
                  (fun r => r.text.length) := rfl
          rw [take_step, List.sum_cons]
          ring

theorem runTText_eq_docxRunText {r : Xml}
    (h : ∀ c ∈ r.children, c.tag ≠ "w:tab" ∧ c.tag ≠ "w:br" ∧ c.tag ≠ "w:cr") :
    runTText r = docxRunText r := by
  rw [runTText, docxRunText, findallChild]
  have main : ∀ cs : List Xml,
      (∀ c ∈ cs, c.tag ≠ "w:tab" ∧ c.tag ≠ "w:br" ∧ c.tag ≠ "w:cr") →
      joinSep "" (((cs.filter (fun c => c.tag = "w:t")).filter
          (fun t => t.text ≠ "")).map Xml.text) =
        joinSep "" (cs.map (fun c =>
          if c.tag = "w:t" then c.text
          else if c.tag = "w:tab" then "\t"
          else if c.tag = "w:br" ∨ c.tag = "w:cr" then "\n"
          else "")) := by
    intro cs
    induction cs with
    | nil => intro _; rfl
    | cons c rest ih =>
        intro hcs
        have hc := hcs c (List.mem_cons_self _ _)
        have hrest := fun x hx => hcs x (List.mem_cons_of_mem _ hx)
        rw [List.map_cons, joinSep_empty_cons]
        by_cases ht : c.tag = "w:t"
        · rw [List.filter_cons_of_pos (by simp [ht]), if_pos ht]
          by_cases htx : c.text = ""
          · rw [List.filter_cons_of_neg (by simp [htx]), ih hrest, htx,
              str_empty_append]
          · rw [List.filter_cons_of_pos (by simp [htx]), List.map_cons,
              joinSep_empty_cons, ih hrest]
        · have hbr : ¬ (c.tag = "w:br" ∨ c.tag = "w:cr") := by
            rintro (h1 | h2)
            · exact hc.2.1 h1
            · exact hc.2.2 h2
          rw [List.filter_cons_of_neg (by simp [ht]), if_neg ht, if_neg hc.1,
            if_neg hbr, ih hrest, str_empty_append]
  exact main r.children h

/-- C7 (amended): for every `ParagraphInfo` built by the reader, the
`start_pos` of the k-th run is the sum of the lengths of the preceding runs'
texts; and when every child of every direct run is free of tab, break and cr
elements, concatenating the run texts reproduces `text` exactly and the run
lengths sum to `len(text)`.  Paragraphs with tab/break children violate the
latter two properties (see the counterexample): `enumerate_runs` collects
only `w:t` content while `text` includes the sentinel characters
`python-docx` emits for tabs and breaks. -/
theorem paragraph_run_invariants (p_element : Xml) (path : Nat × Nat × Nat) :
    (∀ k (h : k < (paragraphInfoOf p_element path).runs.length),
      (((paragraphInfoOf p_element path).runs.get ⟨k, h⟩).start_pos =
        ((((paragraphInfoOf p_element path).runs.take k).map
          (fun r => r.text.length)).sum))) ∧
    ((∀ r ∈ findallChild p_element "w:r", ∀ c ∈ r.children,
        c.tag ≠ "w:tab" ∧ c.tag ≠ "w:br" ∧ c.tag ≠ "w:cr") →
      joinSep "" ((paragraphInfoOf p_element path).runs.map RunInfo.text) =
        (paragraphInfoOf p_element path).text ∧
      (((paragraphInfoOf p_element path).runs.map
        (fun r => r.text.length)).sum =
          (paragraphInfoOf p_element path).text.length)) := by
  constructor
  · intro k h
    have := enumerateRunsGo_start_pos (findallChild p_element "w:r") 0 k h
    simpa using this
  · intro hnotab
    have hconcat : joinSep "" ((paragraphInfoOf p_element path).runs.map RunInfo.text) =
        (paragraphInfoOf p_element path).text := by
      show joinSep "" ((enumerate_runs p_element).map RunInfo.text) =
        docxParagraphText p_element
      rw [enumerate_runs, enumerateRunsGo_map_text, docxParagraphText, findallChild]
      congr 1
      refine List.map_congr_left ?_
      intro r hr
      refine runTText_eq_docxRunText (hnotab r ?_)
      rw [findallChild]
      exact hr
    refine ⟨hconcat, ?_⟩
    have hs : ((paragraphInfoOf p_element path).runs.map
        (fun r => r.text.length)).sum =
        (joinSep "" ((paragraphInfoOf p_element path).runs.map RunInfo.text)).length := by
      rw [length_joinSep_empty]
      congr 1
      simp [Function.comp]
    rw [hs, hconcat]

theorem paragraph_run_invariants_witness :
    (∀ r ∈ findallChild (.mk "w:p" [] "" [.mk "w:r" [] ""
        [.mk "w:t" [] "ab" []]]) "w:r", ∀ c ∈ r.children,
      c.tag ≠ "w:tab" ∧ c.tag ≠ "w:br" ∧ c.tag ≠ "w:cr") ∧
    (joinSep "" ((paragraphInfoOf (.mk "w:p" [] "" [.mk "w:r" [] ""
        [.mk "w:t" [] "ab" []]]) (0, 0, 0)).runs.map RunInfo.text) =
      (paragraphInfoOf (.mk "w:p" [] "" [.mk "w:r" [] ""
        [.mk "w:t" [] "ab" []]]) (0, 0, 0)).text) := by
  have hside : ∀ r ∈ findallChild (.mk "w:p" [] "" [.mk "w:r" [] ""
      [.mk "w:t" [] "ab" []]]) "w:r", ∀ c ∈ r.children,
      c.tag ≠ "w:tab" ∧ c.tag ≠ "w:br" ∧ c.tag ≠ "w:cr" := by
    intro r hr c hc
    have hr' : r = Xml.mk "w:r" [] "" [.mk "w:t" [] "ab" []] := by
      have : findChild (.mk "w:p" [] "" [.mk "w:r" [] ""
          [.mk "w:t" [] "ab" []]]) "w:r" = some (Xml.mk "w:r" [] "" [.mk "w:t" [] "ab" []]) := rfl
      rcases List.mem_filter.mp hr with ⟨hmem, _⟩
      rcases List.mem_singleton.mp hmem with rfl
      rfl
    subst hr'
    rcases List.mem_singleton.mp hc with rfl
    exact ⟨by decide, by decide, by decide⟩
  exact ⟨hside,
    ((paragraph_run_invariants (.mk "w:p" [] "" [.mk "w:r" [] ""
      [.mk "w:t" [] "ab" []]]) (0, 0, 0)).2 hside).1⟩

/-- C7 (counterexample): the paragraph `<w:p><w:r><w:t>a</w:t><w:tab/>
<w:t>b</w:t></w:r></w:p>` yields one `ParagraphInfo` whose run texts sum to 2
characters while `text` (which includes the tab sentinel) has length 3 — the
claimed `sum(len(run.text)) == len(text)` fails for tab children. -/
theorem tab_breaks_run_text_sum :
    (enumerate_paragraphs tabParagraph 0 0).map
        (fun pi => (((pi.runs.map (fun r => r.text.length)).sum), pi.text.length)) =
      [(2, 3)] ∧ (2 : Nat) ≠ 3 := by
  exact ⟨rfl, by decide⟩

end Litera

namespace Litera

/-- Every span the extraction loop appends records its list position in both
the `start` and the `end` slot, so the two slots are always equal. -/
theorem extractSpans_start_eq_end (opcodes : List Opcode)
    (ot mt : String) (otok mtok : List String) :
    (∀ sp ∈ (extractSpans opcodes ot mt otok mtok).1, sp.spanStart = sp.spanEnd) ∧
    (∀ sp ∈ (extractSpans opcodes ot mt otok mtok).2, sp.spanStart = sp.spanEnd) := by
  rw [extractSpans]
  have main : ∀ (ops : List Opcode) (acc : List Span × List Span),
      (∀ sp ∈ acc.1, sp.spanStart = sp.spanEnd) →
      (∀ sp ∈ acc.2, sp.spanStart = sp.spanEnd) →
      (∀ sp ∈ (ops.foldl (fun (st : List Span × List Span) op =>
          match op.tag with
          | .delete =>
              let span_text := strSlice ot op.o1 op.o2
              let cmap := build_char_to_token_map otok
              let token_start := charMapGet cmap op.o1 0
              let token_end := charMapGet cmap op.o2 otok.length
              let span_tokens := (otok.take token_end).drop token_start
              (st.1 ++ [⟨span_text, span_tokens, st.1.length, st.1.length⟩], st.2)
          | .insert =>
              let span_text := strSlice mt op.m1 op.m2
              let cmap := build_char_to_token_map mtok
              let token_start := charMapGet cmap op.m1 0
              let token_end := charMapGet cmap op.m2 mtok.length
              let span_tokens := (mtok.take token_end).drop token_start
              (st.1, st.2 ++ [⟨span_text, span_tokens, st.2.length, st.2.length⟩])
          | _ => st) acc).1, sp.spanStart = sp.spanEnd) ∧
      (∀ sp ∈ (ops.foldl (fun (st : List Span × List Span) op =>
          match op.tag with
          | .delete =>
              let span_text := strSlice ot op.o1 op.o2
              let cmap := build_char_to_token_map otok
              let token_start := charMapGet cmap op.o1 0
              let token_end := charMapGet cmap op.o2 otok.length
              let span_tokens := (otok.take token_end).drop token_start
              (st.1 ++ [⟨span_text, span_tokens, st.1.length, st.1.length⟩], st.2)
          | .insert =>
              let span_text := strSlice mt op.m1 op.m2
              let cmap := build_char_to_token_map mtok
              let token_start := charMapGet cmap op.m1 0
              let token_end := charMapGet cmap op.m2 mtok.length
              let span_tokens := (mtok.take token_end).drop token_start
              (st.1, st.2 ++ [⟨span_text, span_tokens, st.2.length, st.2.length⟩])
          | _ => st) acc).2, sp.spanStart = sp.spanEnd) := by
    intro ops
    induction ops with
    | nil => intro acc h1 h2; exact ⟨h1, h2⟩
    | cons op rest ih =>
        intro acc h1 h2
        rw [List.foldl_cons]
        cases htag : op.tag with
        | delete =>
            refine ih _ ?_ h2
            intro sp hsp
            rcases List.mem_append.mp hsp with h | h
            · exact h1 sp h
            · rcases List.mem_singleton.mp h with rfl; rfl
        | insert =>
            refine ih _ h1 ?_
            intro sp hsp
            rcases List.mem_append.mp hsp with h | h
            · exact h2 sp h
            · rcases List.mem_singleton.mp h with rfl; rfl
        | equal => exact ih _ h1 h2
        | replace => exact ih _ h1 h2
  exact main opcodes ([], []) (by simp) (by simp)

/-- `getD` on a list of equal-slot spans (including the default) yields an
equal-slot span. -/
theorem getD_span_eq {l : List Span} (h : ∀ sp ∈ l, sp.spanStart = sp.spanEnd)
    (k : Nat) : (l.getD k ⟨"", [], 0, 0⟩).spanStart = (l.getD k ⟨"", [], 0, 0⟩).spanEnd := by
  rw [List.getD]
  cases hg : l.get? k with
  | none => rfl
  | some sp => exact h sp (List.get?_mem hg)

/-- Every entry of the `char_move_map` has an equal-slot key and an equal-slot
value, because the spans it copies from record their list position in both
slots. -/
theorem charMoveMap_slots (move_mappings : List ((Nat × Nat × Nat) × (Nat × Nat × Nat)))
    (ds is : List Span) (hd : ∀ sp ∈ ds, sp.spanStart = sp.spanEnd)
    (hi : ∀ sp ∈ is, sp.spanStart = sp.spanEnd) :
    ∀ e ∈ buildCharMoveMap move_mappings ds is, e.1.1 = e.1.2 ∧ e.2.1 = e.2.2 := by
  rw [buildCharMoveMap]
  have main : ∀ (mm : List ((Nat × Nat × Nat) × (Nat × Nat × Nat)))
      (acc : List ((Nat × Nat) × (Nat × Nat))),
      (∀ e ∈ acc, e.1.1 = e.1.2 ∧ e.2.1 = e.2.2) →
      ∀ e ∈ mm.foldl (fun cmm e =>
          cmm ++ [(((ds.getD e.1.1 ⟨"", [], 0, 0⟩).spanStart,
            (ds.getD e.1.1 ⟨"", [], 0, 0⟩).spanEnd),
            ((is.getD e.2.1 ⟨"", [], 0, 0⟩).spanStart,
            (is.getD e.2.1 ⟨"", [], 0, 0⟩).spanEnd))]) acc,
        e.1.1 = e.1.2 ∧ e.2.1 = e.2.2 := by
    intro mm
    induction mm with
    | nil => intro acc hacc e he; exact hacc e he
    | cons m rest ih =>
        intro acc hacc e he
        rw [List.foldl_cons] at he
        refine ih _ ?_ e he
        intro e' he'
        rcases List.mem_append.mp he' with h | h
        · exact hacc e' h
        · rcases List.mem_singleton.mp h with rfl
          exact ⟨getD_span_eq hd _, getD_span_eq hi _⟩
  exact main move_mappings [] (by simp)

/-- A move flag computed against a map whose keys and value intervals are
degenerate (equal slots) is false for any operation with a nonempty range. -/
theorem classifyIsMove_false (cmm : List ((Nat × Nat) × (Nat × Nat)))
    (hcmm : ∀ e ∈ cmm, e.1.1 = e.1.2 ∧ e.2.1 = e.2.2) (op : Opcode)
    (hdel : op.tag = .delete → op.o1 < op.o2)
    (hins : op.tag = .insert → op.m1 < op.m2) :
    classifyIsMove cmm op = false := by
  rw [classifyIsMove]
  cases htag : op.tag with
  | delete =>
      cases hfind : cmm.find? (fun e => e.1 = (op.o1, op.o2)) with
      | none => rfl
      | some e =>
          exfalso
          have hpe := List.find?_some hfind
          have hmem := List.mem_of_find?_eq_some hfind
          have hslot := (hcmm e hmem).1
          have he : e.1 = (op.o1, op.o2) := by simpa using hpe
          have hlt := hdel htag
          rw [he] at hslot
          simp at hslot
          omega
  | insert =>
      show List.any cmm (fun e => decide (e.2.1 ≤ op.m1 ∧ op.m2 ≤ e.2.2)) = false
      rw [List.any_eq_false]
      intro e hmem
      have hslot := (hcmm e hmem).2
      have hlt := hins htag
      simp only [decide_eq_true_eq, not_and]
      intro h1 h2
      omega
  | equal => rfl
  | replace => rfl

/-- Shared helper: when every delete opcode covers a nonempty original range
and every insert opcode a nonempty modified range, no classified operation is
flagged as a move — the move map records span-list positions in both interval
slots, which nonempty character ranges can never match. -/
theorem classify_no_moves (opcodes : List Opcode)
    (ot mt : String) (otok mtok : List String)
    (ss : Int) (jt : ℚ) (ms : Int)
    (hops : ∀ op ∈ opcodes, (op.tag = .delete → op.o1 < op.o2) ∧
      (op.tag = .insert → op.m1 < op.m2)) :
    ∀ c ∈ classify_operations_with_moves opcodes ot mt otok mtok ss jt ms,
      c.is_move = false := by
  intro c hc
  rw [classify_operations_with_moves] at hc
  rcases List.mem_map.mp hc with ⟨op, hop, rfl⟩
  have hspans := extractSpans_start_eq_end opcodes ot mt otok mtok
  show classifyIsMove _ op = false
  refine classifyIsMove_false _ ?_ op (hops op hop).1 (hops op hop).2
  exact charMoveMap_slots _ _ _ hspans.1 hspans.2

end Litera

namespace Litera

/-- Shared helper: the stats record is always built with
`total := insertions + deletions + moves` (lines 917-922). -/
theorem run_compare_ooxml_total (orig_doc mod_doc : Xml) (opts : CompareOptions)
    (dmp_main : String → String → List (Int × String)) (r : CompareResult)
    (h : run_compare_ooxml orig_doc mod_doc opts dmp_main = some r) :
    r.stats.total = r.stats.insertions + r.stats.deletions + r.stats.moves := by
  rw [run_compare_ooxml] at h
  simp only [bind, Option.bind] at h
  split at h
  · simp at h
  · beta_reduce at h
    split at h
    · simp at h
    · simp only [Option.some_inj] at h
      subst h
      rfl

/-- C4 (amended): the stats returned by `run_compare_ooxml` always satisfy
`total = insertions + deletions + moves`; but a matched moveFrom/moveTo pair
contributes nothing (not one) to the moves count — for operations with
nonempty spans the classifier never sets `is_move`, because the move map
compares span-list positions against character offsets. -/
theorem ooxml_stats_total_and_moves :
    (∀ (orig_doc mod_doc : Xml) (opts : CompareOptions)
      (dmp_main : String → String → List (Int × String)) (r : CompareResult),
      run_compare_ooxml orig_doc mod_doc opts dmp_main = some r →
      r.stats.total = r.stats.insertions + r.stats.deletions + r.stats.moves) ∧
    (∀ (opcodes : List Opcode) (ot mt : String) (otok mtok : List String)
      (ss : Int) (jt : ℚ) (ms : Int),
      (∀ op ∈ opcodes, (op.tag = .delete → op.o1 < op.o2) ∧
        (op.tag = .insert → op.m1 < op.m2)) →
      ∀ c ∈ classify_operations_with_moves opcodes ot mt otok mtok ss jt ms,
        c.is_move = false) :=
  ⟨run_compare_ooxml_total, classify_no_moves⟩

theorem ooxml_stats_total_and_moves_witness :
    ((⟨paraDoc "a", ⟨1, 1, 0, 2⟩, [(0, -1), (-1, 0)], 2⟩ : CompareResult).stats.total =
      (⟨paraDoc "a", ⟨1, 1, 0, 2⟩, [(0, -1), (-1, 0)], 2⟩ : CompareResult).stats.insertions +
      (⟨paraDoc "a", ⟨1, 1, 0, 2⟩, [(0, -1), (-1, 0)], 2⟩ : CompareResult).stats.deletions +
      (⟨paraDoc "a", ⟨1, 1, 0, 2⟩, [(0, -1), (-1, 0)], 2⟩ : CompareResult).stats.moves) ∧
    (∀ c ∈ classify_operations_with_moves movePairOpcodes text12 text12
        tokens12 tokens12 5 (17/20) 12, c.is_move = false) :=
  ⟨ooxml_stats_total_and_moves.1 (paraDoc "a") (paraDoc "b") defaultOptions
      (fun _ _ => []) ⟨paraDoc "a", ⟨1, 1, 0, 2⟩, [(0, -1), (-1, 0)], 2⟩ rfl,
    ooxml_stats_total_and_moves.2 movePairOpcodes text12 text12
      tokens12 tokens12 5 (17/20) 12 (by decide)⟩

end Litera

namespace Litera

theorem jaccard_tokens12_self :
    jaccard_similarity (token_shingles tokens12 5) (token_shingles tokens12 5) = 1 := by
  rw [jaccard_similarity]
  rw [if_neg (by decide), if_neg (by decide)]
  show (if 0 < (8 : Nat) then ((8 : Nat) : ℚ) / ((8 : Nat) : ℚ) else 0) = 1
  norm_num

/-- C4 (counterexample): on a full-text delete plus an identical full-text
insert of twelve tokens, the span extraction of
`_classify_operations_with_moves` yields one deleted and one inserted span,
the move detector matches them as a pair — but no classified operation is
flagged as a move: the matched pair contributes zero to the moves count, not
one. -/
theorem ooxml_move_pair_uncounted :
    detect_moves_shingled
        (extractSpans movePairOpcodes text12 text12 tokens12 tokens12).1
        (extractSpans movePairOpcodes text12 text12 tokens12 tokens12).2
        5 (17/20) 12 = [((0, 0, 0), (0, 0, 0))] ∧
    (classify_operations_with_moves movePairOpcodes text12 text12
        tokens12 tokens12 5 (17/20) 12).length = 2 ∧
    (classify_operations_with_moves movePairOpcodes text12 text12
        tokens12 tokens12 5 (17/20) 12).filter (fun c => c.is_move) = [] := by
  refine ⟨?_, ?_, ?_⟩
  · show detect_moves_shingled [⟨text12, tokens12, 0, 0⟩] [⟨text12, tokens12, 0, 0⟩]
      5 (17/20) 12 = [((0, 0, 0), (0, 0, 0))]
    have hne : ¬ (token_shingles tokens12 5 = []) := by decide
    rw [detect_moves_shingled]
    simp only [spanShingles, List.map, sortBy, List.enum, List.enumFrom, List.zip,
      List.zipWith, List.foldl, insertBy, bestInsertion, jaccard_tokens12_self]
    norm_num [show tokens12.length = 12 from rfl, hne]
    rw [jaccard_tokens12_self]
    rw [if_pos (by norm_num)]
    rfl
  · rfl
  · rw [List.filter_eq_nil_iff]
    intro c hc
    have := classify_no_moves movePairOpcodes text12 text12 tokens12 tokens12
      5 (17/20) 12 (by decide) c hc
    simp [this]

end Litera

namespace Litera

theorem assocFind_eq_map_find (m : List (String × List Nat)) (k : String) :
    assocFind m k = (m.find? (fun e => e.1 = k)).map Prod.snd := by
  rw [assocFind]
  cases m.find? (fun e => e.1 = k) <;> rfl

theorem assocFind_map_upd (h₀ : String) (j : Nat) (k : String) :
    ∀ m : List (String × List Nat),
      assocFind (m.map (fun e => if e.1 = h₀ then (e.1, e.2 ++ [j]) else e)) k =
        (assocFind m k).map (fun v => if k = h₀ then v ++ [j] else v) := by
  intro m
  induction m with
  | nil => rfl
  | cons e rest ih =>
      simp only [List.map_cons]
      by_cases hek : e.1 = k
      · by_cases he : e.1 = h₀
        · rw [if_pos he]
          rw [assocFind_eq_map_find, assocFind_eq_map_find]
          rw [List.find?_cons_of_pos _ (by simpa using hek),
            List.find?_cons_of_pos _ (by simpa using hek)]
          have hkh : k = h₀ := hek ▸ he
          simp [hkh]
        · rw [if_neg he]
          rw [assocFind_eq_map_find, assocFind_eq_map_find]
          rw [List.find?_cons_of_pos _ (by simpa using hek),
            List.find?_cons_of_pos _ (by simpa using hek)]
          have hkh : ¬ (k = h₀) := fun hc => he (hek ▸ hc)
          simp [hkh]
      · have hek' : ¬ ((if e.1 = h₀ then (e.1, e.2 ++ [j]) else e).1 = k) := by
          by_cases he : e.1 = h₀
          · simpa [he] using hek
          · simpa [he] using hek
        rw [assocFind_eq_map_find, assocFind_eq_map_find,
          List.find?_cons_of_neg _ (by simpa using hek'),
          List.find?_cons_of_neg _ (by simpa using hek),
          ← assocFind_eq_map_find, ← assocFind_eq_map_find]
        exact ih

theorem assocFind_append (m l : List (String × List Nat)) (k : String) :
    assocFind (m ++ l) k =
      match assocFind m k with
      | some v => some v
      | none => assocFind l k := by
  induction m with
  | nil => simp [assocFind]
  | cons e rest ih =>
      by_cases hek : e.1 = k
      · rw [List.cons_append, assocFind_eq_map_find, assocFind_eq_map_find,
          List.find?_cons_of_pos _ (by simpa using hek),
          List.find?_cons_of_pos _ (by simpa using hek)]
        rfl
      · rw [List.cons_append, assocFind_eq_map_find, assocFind_eq_map_find,
          List.find?_cons_of_neg _ (by simpa using hek),
          List.find?_cons_of_neg _ (by simpa using hek),
          ← assocFind_eq_map_find, ← assocFind_eq_map_find]
        exact ih

theorem assocFind_setdefaultAppend (m : List (String × List Nat))
    (h₀ : String) (j : Nat) (k : String) :
    assocFind (setdefaultAppend m h₀ j) k =
      if k = h₀ then some ((assocFind m h₀).getD [] ++ [j]) else assocFind m k := by
  rw [setdefaultAppend]
  by_cases hs : (m.find? (fun e => e.1 = h₀)).isSome
  · rw [if_pos hs, assocFind_map_upd]
    by_cases hk : k = h₀
    · subst hk
      rcases Option.isSome_iff_exists.mp hs with ⟨e, he⟩
      have : assocFind m k = some e.2 := by
        rw [assocFind_eq_map_find, he]; rfl
      rw [this]
      simp
    · rw [if_neg hk]
      cases assocFind m k with
      | none => rfl
      | some v => simp [hk]
  · rw [if_neg hs, assocFind_append]
    have hnone : assocFind m h₀ = none := by
      rw [assocFind_eq_map_find]
      cases hf : m.find? (fun e => e.1 = h₀) with
      | none => rfl
      | some e => rw [hf] at hs; simp at hs
    by_cases hk : k = h₀
    · subst hk
      rw [hnone]
      simp [assocFind]
    · rw [if_neg hk]
      cases hm : assocFind m k with
      | some v => rfl
      | none =>
          show assocFind [(h₀, [j])] k = none
          rw [assocFind_eq_map_find, List.find?_cons_of_neg _ (by simpa using fun h => hk h.symm)]
          rfl

end Litera

namespace Litera

theorem assocFind_buildFrom (hash_fn : String → String) (k : String) :
    ∀ (xs : List String) (j : Nat) (m : List (String × List Nat)),
      assocFind ((List.enumFrom j xs).foldl
          (fun m ji => setdefaultAppend m (hash_fn ji.2) ji.1) m) k =
        match assocFind m k with
        | some cur => some (cur ++ hashPositions hash_fn k xs j)
        | none =>
            if hashPositions hash_fn k xs j = [] then none
            else some (hashPositions hash_fn k xs j) := by
  intro xs
  induction xs with
  | nil =>
      intro j m
      show assocFind m k = _
      cases hm : assocFind m k with
      | some cur => simp [hashPositions]
      | none => simp [hashPositions]
  | cons x rest ih =>
      intro j m
      show assocFind ((List.enumFrom (j + 1) rest).foldl
          (fun m ji => setdefaultAppend m (hash_fn ji.2) ji.1)
          (setdefaultAppend m (hash_fn x) j)) k = _
      rw [ih (j + 1) (setdefaultAppend m (hash_fn x) j)]
      rw [assocFind_setdefaultAppend]
      by_cases hk : k = hash_fn x
      · rw [if_pos hk]
        have hhd : hashPositions hash_fn k (x :: rest) j =
            [j] ++ hashPositions hash_fn k rest (j + 1) := by
          rw [hashPositions, if_pos hk.symm]
        rw [hhd]
        cases hm : assocFind m k with
        | some cur =>
            rw [hk] at hm; rw [hm]
            simp
        | none =>
            rw [hk] at hm; rw [hm]
            simp
      · rw [if_neg hk]
        have hhd : hashPositions hash_fn k (x :: rest) j =
            hashPositions hash_fn k rest (j + 1) := by
          rw [hashPositions, if_neg (fun hc => hk hc.symm)]
          rfl
        rw [hhd]

theorem assocFind_buildModHashMap (hash_fn : String → String)
    (modified : List String) (k : String) :
    assocFind (buildModHashMap hash_fn modified) k =
      if hashPositions hash_fn k modified 0 = [] then none
      else some (hashPositions hash_fn k modified 0) := by
  rw [buildModHashMap]
  have : modified.enum = List.enumFrom 0 modified := rfl
  rw [this, assocFind_buildFrom]
  rfl

theorem hashPositions_ge (hash_fn : String → String) (k : String) :
    ∀ (xs : List String) (j : Nat), ∀ p ∈ hashPositions hash_fn k xs j, j ≤ p := by
  intro xs
  induction xs with
  | nil => intro j p hp; simp [hashPositions] at hp
  | cons x rest ih =>
      intro j p hp
      rw [hashPositions] at hp
      rcases List.mem_append.mp hp with h | h
      · by_cases hhx : hash_fn x = k
        · rw [if_pos hhx] at h
          rcases List.mem_singleton.mp h with rfl
          exact le_refl _
        · rw [if_neg hhx] at h; simp at h
      · exact le_trans (Nat.le_succ j) (ih (j + 1) p h)

theorem hashPositions_sorted (hash_fn : String → String) (k : String) :
    ∀ (xs : List String) (j : Nat),
      List.Pairwise (· < ·) (hashPositions hash_fn k xs j) := by
  intro xs
  induction xs with
  | nil => intro j; simp [hashPositions]
  | cons x rest ih =>
      intro j
      rw [hashPositions]
      refine List.pairwise_append.mpr ⟨?_, ih (j + 1), ?_⟩
      · by_cases hhx : hash_fn x = k
        · simp [hhx]
        · simp [hhx]
      · intro a ha b hb
        by_cases hhx : hash_fn x = k
        · rw [if_pos hhx] at ha
          rcases List.mem_singleton.mp ha with rfl
          exact lt_of_lt_of_le (Nat.lt_succ_self a) (hashPositions_ge hash_fn k rest (a + 1) b hb)
        · rw [if_neg hhx] at ha; simp at ha

theorem hashPositions_mem (hash_fn : String → String) (k : String) :
    ∀ (xs : List String) (i j : Nat), i < xs.length →
      hash_fn (xs.getD i "") = k → (j + i) ∈ hashPositions hash_fn k xs j := by
  intro xs
  induction xs with
  | nil => intro i j hi; simp at hi
  | cons x rest ih =>
      intro i j hi hh
      rw [hashPositions]
      cases i with
      | zero =>
          refine List.mem_append.mpr (Or.inl ?_)
          have : hash_fn x = k := hh
          simp [this]
      | succ i' =>
          refine List.mem_append.mpr (Or.inr ?_)
          have h1 : i' < rest.length := Nat.lt_of_succ_lt_succ hi
          have h2 : hash_fn (rest.getD i' "") = k := hh
          have := ih i' (j + 1) h1 h2
          have harith : j + 1 + i' = j + (i' + 1) := by omega
          rw [harith] at this
          exact this

theorem filter_unused_head {i : Nat} :
    ∀ l : List Nat, List.Pairwise (· < ·) l → i ∈ l →
      ∃ t, l.filter (fun j => j ∉ List.range i) = i :: t := by
  intro l
  induction l with
  | nil => intro _ hi; simp at hi
  | cons y ys ih =>
      intro hp hi
      rcases List.pairwise_cons.mp hp with ⟨hy, hys⟩
      rcases List.mem_cons.mp hi with rfl | hmem
      · refine ⟨ys.filter (fun j => j ∉ List.range i), ?_⟩
        rw [List.filter_cons_of_pos (by simp)]
      · have hyi : y < i := hy i hmem
        rw [List.filter_cons_of_neg (by simp [List.mem_range, hyi])]
        exact ih hys hmem

end Litera

namespace Litera

theorem diagPairs_succ (n : Nat) :
    diagPairs (n + 1) = diagPairs n ++ [(n, n)] := by
  rw [diagPairs, diagPairs, List.range_succ, List.map_append]
  rfl

theorem greedyGo_self (hash_fn : String → String) (xs : List String) :
    ∀ (rest : List String) (i : Nat), rest = xs.drop i → i ≤ xs.length →
      greedyGo hash_fn (buildModHashMap hash_fn xs) rest i
        (List.range i) (diagPairs i) = diagPairs xs.length := by
  intro rest
  induction rest with
  | nil =>
      intro i hdrop hle
      have : xs.length ≤ i := by
        have := congrArg List.length hdrop
        simp [List.length_drop] at this
        omega
      have hin : i = xs.length := le_antisymm hle this
      rw [greedyGo, hin]
  | cons item rest' ih =>
      intro i hdrop hle
      have hhead : xs.get? i = some item := by
        have h1 : (xs.drop i).head? = some item := by rw [← hdrop]; rfl
        rw [List.head?_drop] at h1
        rwa [List.get?_eq_getElem?]
      have hi : i < xs.length := List.get?_eq_some.mp hhead |>.choose
      have hgetD : xs.getD i "" = item := by
        rw [List.getD, hhead]; rfl
      rw [greedyGo]
      have hfind : assocFind (buildModHashMap hash_fn xs) (hash_fn item) =
          some (hashPositions hash_fn (hash_fn item) xs 0) := by
        rw [assocFind_buildModHashMap]
        have hmem : i ∈ hashPositions hash_fn (hash_fn item) xs 0 := by
          have := hashPositions_mem hash_fn (hash_fn item) xs i 0 hi (by rw [hgetD])
          simpa using this
        rw [if_neg (by intro hc; rw [hc] at hmem; simp at hmem)]
      have hmem : i ∈ hashPositions hash_fn (hash_fn item) xs 0 := by
        have := hashPositions_mem hash_fn (hash_fn item) xs i 0 hi (by rw [hgetD])
        simpa using this
      rcases filter_unused_head (hashPositions hash_fn (hash_fn item) xs 0)
        (hashPositions_sorted hash_fn (hash_fn item) xs 0) hmem with ⟨t, hfilter⟩
      simp only [hfind, hfilter]
      have hdrop' : rest' = xs.drop (i + 1) := by
        have h2 : (xs.drop i).tail = xs.drop (i + 1) := by
          rw [← List.tail_drop]
        rw [← h2, ← hdrop]
        rfl
      have hrange : List.range i ++ [i] = List.range (i + 1) :=
        (List.range_succ i).symm
      rw [hrange, ← diagPairs_succ]
      exact ih (i + 1) hdrop' hi

theorem greedyMatches_self (hash_fn : String → String) (xs : List String) :
    greedyMatches hash_fn xs xs = diagPairs xs.length := by
  rw [greedyMatches]
  have := greedyGo_self hash_fn xs xs 0 (by rfl) (Nat.zero_le _)
  simpa [diagPairs] using this

end Litera

namespace Litera

theorem pilesN_getD {m n : Nat} (h : m < n) :
    (pilesN n).getD m [] = [(m, m)] := by
  rw [pilesN, List.getD, List.get?_map, List.get?_range h]
  rfl

theorem pilesN_length (n : Nat) : (pilesN n).length = n := by
  rw [pilesN, List.length_map, List.length_range]

theorem pileSearch_all_lt (piles : List (List (Nat × Nat))) (val : Nat) :
    ∀ (fuel l r : Nat), l ≤ r → r - l ≤ fuel →
      (∀ m, l ≤ m → m < r → pileTopVal (piles.getD m []) < val) →
      pileSearch piles val fuel l r = r := by
  intro fuel
  induction fuel with
  | zero =>
      intro l r hlr hfuel _
      have : r = l := by omega
      rw [pileSearch, this]
  | succ f ih =>
      intro l r hlr hfuel hall
      rw [pileSearch]
      by_cases hlt : l < r
      · rw [if_pos hlt]
        have hmid₁ : l ≤ (l + r) / 2 := by omega
        have hmid₂ : (l + r) / 2 < r := by omega
        have htop := hall ((l + r) / 2) hmid₁ hmid₂
        rw [if_neg (by omega)]
        exact ih ((l + r) / 2 + 1) r (by omega) (by omega)
          (fun m hm₁ hm₂ => hall m (by omega) hm₂)
      · rw [if_neg hlt]
        omega

theorem set_append_singleton {α : Type} (l : List α) (x y : α) :
    (l ++ [x]).set l.length y = l ++ [y] := by
  induction l with
  | nil => rfl
  | cons a rest ih => simp [List.set, ih]

theorem pilesN_succ (n : Nat) : pilesN (n + 1) = pilesN n ++ [[(n, n)]] := by
  rw [pilesN, pilesN, List.range_succ, List.map_append]
  rfl

theorem predsN_succ (n : Nat) :
    predsN (n + 1) = (n, if n = 0 then none else some (n - 1)) :: predsN n := rfl

theorem patienceStep_diag (n : Nat) :
    patienceStep (pilesN n, predsN n) (n, n) = (pilesN (n + 1), predsN (n + 1)) := by
  rw [patienceStep]
  have hsearch : pileSearch (pilesN n) n ((pilesN n).length + 1) 0 (pilesN n).length = (pilesN n).length := by
    refine pileSearch_all_lt (pilesN n) n ((pilesN n).length + 1) 0 (pilesN n).length
      (Nat.zero_le _) (by omega) ?_
    intro m _ hm
    rw [pilesN_length] at hm
    rw [pilesN_getD hm]
    show m < n
    exact hm
  simp only [hsearch, eq_self_iff_true, if_true]
  have hgetD : ((pilesN n ++ [[]]).getD (pilesN n).length []) = ([] : List (Nat × Nat)) := by
    rw [List.getD, List.get?_append_right (le_refl _)]
    simp
  rw [hgetD]
  have hset : (pilesN n ++ [[]]).set (pilesN n).length ([] ++ [(n, n)]) = pilesN (n + 1) := by
    rw [List.nil_append, set_append_singleton, ← pilesN_succ]
  rw [hset]
  cases n with
  | zero =>
      rw [if_neg (by simp [pilesN_length])]
      rfl
  | succ m =>
      rw [if_pos (by rw [pilesN_length]; omega)]
      have hgd : (pilesN (m + 1 + 1)).getD ((pilesN (m + 1)).length - 1) [] = [(m, m)] := by
        rw [pilesN_length]
        simpa using pilesN_getD (show m < m + 1 + 1 by omega)
      rw [hgd]
      rw [predsN_succ (m + 1)]
      simp [pileTopIdx]

theorem foldl_patienceStep_diag (n : Nat) :
    (diagPairs n).foldl patienceStep ([], []) = (pilesN n, predsN n) := by
  induction n with
  | zero => rfl
  | succ m ih =>
      rw [diagPairs_succ, List.foldl_append, ih]
      simpa using patienceStep_diag m

theorem predLookup_predsN {n k : Nat} (h : k < n) :
    predLookup (predsN n) k = if k = 0 then none else some (k - 1) := by
  induction n with
  | zero => omega
  | succ m ih =>
      rw [predsN_succ, predLookup]
      by_cases hk : k = m
      · subst hk
        rw [List.find?_cons_of_pos _ (by simp)]
      · rw [List.find?_cons_of_neg _ (by simp [Ne.symm, hk])]
        have := ih (by omega)
        rw [predLookup] at this
        exact this

theorem lisReconstruct_predsN (n : Nat) :
    ∀ (k fuel : Nat), k < n → k + 1 ≤ fuel →
      lisReconstruct (predsN n) fuel (some k) = (List.range (k + 1)).reverse := by
  intro k
  induction k with
  | zero =>
      intro fuel hk hfuel
      cases fuel with
      | zero => omega
      | succ f =>
          rw [lisReconstruct, predLookup_predsN hk, if_pos rfl, lisReconstruct]
          rfl
  | succ j ih =>
      intro fuel hk hfuel
      cases fuel with
      | zero => omega
      | succ f =>
          rw [lisReconstruct, predLookup_predsN hk, if_neg (by omega)]
          have : j + 1 - 1 = j := by omega
          rw [this, ih f (by omega) (by omega)]
          simp [List.range_succ]

theorem patience_lis_diag (n : Nat) :
    patience_lis (diagPairs n) = List.range n := by
  cases n with
  | zero => rfl
  | succ m =>
      rw [patience_lis]
      have hne : ¬ (diagPairs (m + 1) = []) := by
        rw [diagPairs_succ]
        simp
      rw [if_neg hne, foldl_patienceStep_diag]
      have hne2 : ¬ (pilesN (m + 1) = []) := by
        rw [pilesN_succ]; simp
      rw [if_neg hne2]
      have hlast : (pilesN (m + 1)).getLastD [] = [(m, m)] := by
        rw [pilesN_succ, List.getLastD_concat]
      rw [hlast]
      have hlen : (diagPairs (m + 1)).length = m + 1 := by
        rw [diagPairs, List.length_map, List.length_range]
      rw [hlen]
      show (lisReconstruct (predsN (m + 1)) (m + 1 + 1) (some m)).reverse = _
      rw [lisReconstruct_predsN (m + 1) m (m + 1 + 1) (by omega) (by omega)]
      rw [List.reverse_reverse]

end Litera

namespace Litera

theorem insertBy_all_le {α : Type} (le : α → α → Bool) (x : α) :
    ∀ l : List α, (∀ y ∈ l, le y x = true) → insertBy le x l = l ++ [x] := by
  intro l
  induction l with
  | nil => intro _; rfl
  | cons y ys ih =>
      intro h
      rw [insertBy, if_pos (h y (List.mem_cons_self _ _)), ih
        (fun z hz => h z (List.mem_cons_of_mem _ hz))]
      rfl

theorem sortBy_diag (n : Nat) :
    sortBy (fun x y => x.1 ≤ y.1) (diagPairs n) = diagPairs n := by
  induction n with
  | zero => rfl
  | succ m ih =>
      rw [diagPairs_succ, sortBy, List.foldl_append]
      rw [show (diagPairs m).foldl
        (fun acc x => insertBy (fun x y => (x.1 ≤ y.1 : Bool)) x acc) [] =
        sortBy (fun x y => (x.1 ≤ y.1 : Bool)) (diagPairs m) from rfl, ih]
      show insertBy _ (m, m) (diagPairs m) = _
      rw [insertBy_all_le _ _ (diagPairs m) ?_, ← diagPairs_succ]
      intro y hy
      rw [diagPairs] at hy
      rcases List.mem_map.mp hy with ⟨i, hi, rfl⟩
      rw [List.mem_range] at hi
      simpa using le_of_lt hi

theorem map_swap_diag (n : Nat) :
    (diagPairs n).map (fun m => (m.2, m.1)) = diagPairs n := by
  rw [diagPairs, List.map_map]
  rfl

theorem diagPairsInt_succ (n : Nat) :
    diagPairsInt (n + 1) = diagPairsInt n ++ [((n : Int), (n : Int))] := by
  rw [diagPairsInt, diagPairsInt, List.range_succ, List.map_append]
  rfl

theorem diagPairs_get? {i n : Nat} (h : i < n) :
    (diagPairs n).get? i = some (i, i) := by
  rw [diagPairs, List.get?_map, List.get?_range h]
  rfl

theorem alignAnchorStep_diag (xs : List String) (n : Nat) (hn : n = xs.length) :
    ∀ (len i : Nat), i + len = n →
      (List.range' i len).foldlM (alignAnchorStep xs xs (diagPairs n))
          (diagPairsInt i, i, i) =
        some (diagPairsInt n, n, n) := by
  intro len
  induction len with
  | zero =>
      intro i hi
      have : i = n := by omega
      subst this
      rfl
  | succ m ih =>
      intro i hi
      rw [List.range'_succ, List.foldlM_cons]
      have hstep : alignAnchorStep xs xs (diagPairs n) (diagPairsInt i, i, i) i =
          some (diagPairsInt (i + 1), i + 1, i + 1) := by
        rw [alignAnchorStep]
        have hget : (diagPairs n).get? i = some (i, i) := diagPairs_get? (by omega)
        rw [hget]
        simp only [bind, Option.bind, Nat.sub_self, List.take_zero]
        rw [if_neg (by simp)]
        rw [← diagPairsInt_succ]
        rfl
      rw [hstep]
      simp only [bind, Option.bind]
      exact ih (i + 1) (by omega)

theorem align_patience_myers_self (hash_fn : String → String) (xs : List String) :
    align_patience_myers hash_fn xs xs = some (diagPairsInt xs.length) := by
  rw [align_patience_myers, greedyMatches_self]
  cases hxs : xs.length with
  | zero =>
      have hnil : xs = [] := List.length_eq_zero.mp hxs
      subst hnil
      rfl
  | succ m =>
      rw [if_neg (by rw [diagPairs_succ]; simp)]
      have hfold := alignAnchorStep_diag xs (m + 1) hxs.symm (m + 1) 0 (by omega)
      rw [show diagPairsInt 0 = [] from rfl] at hfold
      rw [← List.range_eq_range'] at hfold
      simp only [sortBy_diag, map_swap_diag, patience_lis_diag, hfold, bind, Option.bind]
      rw [if_neg (by omega)]
      rfl

end Litera

namespace Litera

theorem align_paragraphs_patience_self (ps : List ParagraphInfo) :
    align_paragraphs_patience ps ps = some (diagPairsInt ps.length) := by
  rw [align_paragraphs_patience, align_patience_myers_self, List.length_map]

theorem comparePairStep_diag (opts : CompareOptions)
    (dmp_main : String → String → List (Int × String))
    (ps : List ParagraphInfo) (k : Nat) (hk : k < ps.length)
    (st : Nat × Nat × Nat × List RevisionOp) :
    comparePairStep opts dmp_main ps ps st (((k : Nat) : Int), ((k : Nat) : Int)) =
      some st := by
  have hget : ps.get? k = some (ps.get ⟨k, hk⟩) := List.get?_eq_get hk
  have hpos : (0 : Int) ≤ ((k : Nat) : Int) := by positivity
  rw [comparePairStep]
  simp only [Int.toNat_natCast, hget, bind, Option.bind, Option.map_some',
    if_pos hpos, eq_self_iff_true, if_true]

theorem foldlM_comparePairStep_diag (opts : CompareOptions)
    (dmp_main : String → String → List (Int × String))
    (ps : List ParagraphInfo) :
    ∀ (ks : List Nat), (∀ k ∈ ks, k < ps.length) →
      ∀ st : Nat × Nat × Nat × List RevisionOp,
      ((ks.map (fun (k : Nat) => ((k : Int), (k : Int)))).foldlM
        (comparePairStep opts dmp_main ps ps) st) = some st := by
  intro ks
  induction ks with
  | nil => intro _ st; rfl
  | cons k rest ih =>
      intro hks st
      rw [List.map_cons, List.foldlM_cons,
        comparePairStep_diag opts dmp_main ps k (hks k (List.mem_cons_self _ _)) st]
      simp only [bind, Option.bind]
      exact ih (fun x hx => hks x (List.mem_cons_of_mem _ hx)) st

/-- Shared helper: comparing a document body against itself produces the
original document, all-zero stats, and the diagonal alignment. -/
theorem run_compare_ooxml_self (doc : Xml) (opts : CompareOptions)
    (dmp_main : String → String → List (Int × String)) :
    run_compare_ooxml doc doc opts dmp_main =
      some ⟨doc, ⟨0, 0, 0, 0⟩,
        diagPairsInt (((enumerate_blocks doc).map Block.paragraphs).flatten).length,
        0⟩ := by
  rw [run_compare_ooxml]
  have hfold := foldlM_comparePairStep_diag opts dmp_main
    (((enumerate_blocks doc).map Block.paragraphs).flatten)
    (List.range (((enumerate_blocks doc).map Block.paragraphs).flatten).length)
    (fun k hk => List.mem_range.mp hk) (0, 0, 0, [])
  rw [show ((List.range (((enumerate_blocks doc).map Block.paragraphs).flatten).length).map
      (fun (k : Nat) => ((k : Int), (k : Int)))) =
      diagPairsInt (((enumerate_blocks doc).map Block.paragraphs).flatten).length
    from rfl] at hfold
  simp only [align_paragraphs_patience_self, hfold, bind, Option.bind]
  rfl

/-- C8: comparing a package against itself yields `stats.total == 0` and an
emitted document whose text content equals the input's — the diff skips every
(identically aligned) paragraph and the rewriter returns the original tree. -/
theorem compare_self_identity (doc : Xml) (opts : CompareOptions)
    (dmp_main : String → String → List (Int × String)) :
    ∃ r, run_compare_ooxml doc doc opts dmp_main = some r ∧
      r.stats.total = 0 ∧ textContent r.document = textContent doc :=
  ⟨_, run_compare_ooxml_self doc opts dmp_main, rfl, rfl⟩

/-- C5 (amended): `run_compare_ooxml` performs no option validation — for
every options value, including a negative shingle size or a Jaccard threshold
outside `[0,1]`, the comparison runs and produces a result (shown on
self-comparison, where the engine is total). -/
theorem options_never_rejected (doc : Xml) (opts : CompareOptions)
    (dmp_main : String → String → List (Int × String)) :
    ∃ r, run_compare_ooxml doc doc opts dmp_main = some r :=
  ⟨_, run_compare_ooxml_self doc opts dmp_main⟩

end Litera
